import Mathlib

/-!
# Haskell dependency analyzer

A shallow embedding of `analyzers/haskell/analyzer.go`: the plan-based extractor
(`AnalyzeCabal`, from the decoded plan onwards) and the listing-based extractor
(`AnalyzeStack`, `FoldStackDeps`), followed by the properties proved about them.

Go maps are association lists with distinct keys.  The order in which a `range`
statement visits a map is not specified by the language, so every `range` over a
map takes a seed that selects the order; all results are stated for every seed.
-/

set_option autoImplicit false

/-! ## Go maps -/

namespace gomap

/-- Go `map[K]V`: an association list; `mapSet` and `mapDelete` keep the keys distinct. -/
abbrev GoMap (κ ν : Type) := List (κ × ν)

/-- The keys of a map. -/
def mapKeys {κ ν : Type} (m : GoMap κ ν) : List κ := m.map Prod.fst

/-- Go `v, ok := m[k]`: `some v` when `ok`, `none` otherwise. -/
def mapGet {κ ν : Type} [DecidableEq κ] : GoMap κ ν → κ → Option ν
  | [], _ => none
  | (k', v) :: rest, k => if k' = k then some v else mapGet rest k

/-- Go `m[k] = v`: overwrite the entry of `k`, or add one. -/
def mapSet {κ ν : Type} [DecidableEq κ] : GoMap κ ν → κ → ν → GoMap κ ν
  | [], k, v => [(k, v)]
  | (k', v') :: rest, k, v => if k' = k then (k, v) :: rest else (k', v') :: mapSet rest k v

/-- Go `delete(m, k)`. -/
def mapDelete {κ ν : Type} [DecidableEq κ] (m : GoMap κ ν) (k : κ) : GoMap κ ν :=
  m.filter (fun e => decide (e.1 ≠ k))

/-- Take the element at position `n` (the last one when `n` is too large) out of `x :: xs`. -/
def pickAt {α : Type} : Nat → α → List α → α × List α
  | 0, x, xs => (x, xs)
  | _ + 1, x, [] => (x, [])
  | n + 1, x, y :: ys => ((pickAt n y ys).1, x :: (pickAt n y ys).2)

/-- The visiting order selected by a seed: each number of the seed picks the next element
among those not visited yet; when the seed is used up the rest is visited as stored. -/
def shuffle {α : Type} : List Nat → List α → List α
  | [], l => l
  | _ :: _, [] => []
  | n :: seed, x :: xs => (pickAt n x xs).1 :: shuffle seed (pickAt n x xs).2

/-- Go `for k, v := range m`: the entries of `m` in the order selected by `seed`. -/
def mapRange {κ ν : Type} (seed : List Nat) (m : GoMap κ ν) : List (κ × ν) := shuffle seed m

end gomap

/-! ## Packages `pkg` and `graph` -/

namespace pkg

/-- Modelled from the spec: the ecosystem tag of a package identity (the analyzer uses
package `pkg`, whose declarations are not part of the sources). -/
inductive «Type» where
  | Haskell
  | Python
deriving DecidableEq

/-- Modelled from the spec: the Package Identity, a triple of ecosystem tag, name and
revision; the analyzer fills exactly these three fields of `pkg.ID`. -/
structure ID where
  «Type» : pkg.«Type»
  Name : String
  Revision : String
deriving DecidableEq

/-- Modelled from the spec: a direct-import reference wrapping a Package Identity; the
analyzer fills only `Resolved` of `pkg.Import`, so `Target` keeps Go's zero value. -/
structure Import where
  Target : String := ""
  Resolved : ID
deriving DecidableEq

/-- Modelled from the spec: the Package Record, an identity plus optional metadata; the
analyzer fills only `ID` of `pkg.Package`, so `Imports` keeps Go's zero value. -/
structure Package where
  ID : ID
  Imports : List Import := []
deriving DecidableEq

end pkg

namespace graph

/-- Modelled from the spec: the Dependency Graph `graph.Deps`, the sequence of direct imports
and the map from identity to record. -/
structure Deps where
  Direct : List pkg.Import
  Transitive : gomap.GoMap pkg.ID pkg.Package
deriving DecidableEq

end graph

/-! ## The analyzer -/

namespace haskell

open gomap

/-- Go `type Component struct`. -/
structure Component where
  Depends : List String
deriving DecidableEq

/-- Go `type Package struct`: a raw package of the install plan. -/
structure Package where
  «Type» : String
  Id : String
  Name : String
  Version : String
  Components : GoMap String Component
  Depends : List String
  Style : String
deriving DecidableEq

/-- Go `type CabalPlan struct`. -/
structure CabalPlan where
  Packages : List Package
deriving DecidableEq

/-- The orders chosen by the three kinds of `range` over a map in `AnalyzeCabal`: the pool
(line 113), the components of each project (line 139), the remaining pool (line 162). -/
structure IterOrder where
  pool : List Nat
  components : Package → List Nat
  transitive : List Nat

/-- The identity `pkg.ID{Type: pkg.Haskell, Name: p.Name, Revision: p.Version}` built at
lines 131-135, 147-151 and 163-167. -/
def pkgIdOf (p : Package) : pkg.ID :=
  { «Type» := pkg.«Type».Haskell, Name := p.Name, Revision := p.Version }

/-- Lines 104-107: the pool, keyed by plan-local id. -/
def buildPool (plan : CabalPlan) : GoMap String Package :=
  plan.Packages.foldl (fun packages p => mapSet packages p.Id p) []

/-- The test of line 114. -/
def isOurProject (p : Package) : Bool :=
  decide (p.«Type» = "configured" ∧ p.Style = "local")

/-- The body of the loop of lines 113-118, on the state `(ourProjects, packages)`. -/
def partitionStep (st : List Package × GoMap String Package) (e : String × Package) :
    List Package × GoMap String Package :=
  if isOurProject e.2 then (st.1 ++ [e.2], mapDelete st.2 e.1) else st

/-- Lines 111-118.  The loop deletes only the entry it is visiting, so it visits every
entry of the pool once. -/
def findOurProjects (seed : List Nat) (packages : GoMap String Package) :
    List Package × GoMap String Package :=
  (mapRange seed packages).foldl partitionStep ([], packages)

/-- The body shared by the loops of lines 125-138 and 141-154, on the state
`(packages, imports)`. -/
def claimDep (st : GoMap String Package × List pkg.Import) (depId : String) :
    GoMap String Package × List pkg.Import :=
  match mapGet st.1 depId with
  | some dep => (mapDelete st.1 depId, st.2 ++ [{ Resolved := pkgIdOf dep }])
  | none => st

/-- The body of the loop of lines 123-156 for one project. -/
def scanProject (ord : IterOrder) (st : GoMap String Package × List pkg.Import)
    (project : Package) : GoMap String Package × List pkg.Import :=
  (mapRange (ord.components project) project.Components).foldl
    (fun s component => component.2.Depends.foldl claimDep s)
    (project.Depends.foldl claimDep st)

/-- Lines 121-156. -/
def directImports (ord : IterOrder) (ourProjects : List Package)
    (packages : GoMap String Package) : GoMap String Package × List pkg.Import :=
  ourProjects.foldl (scanProject ord) (packages, [])

/-- Lines 160-171. -/
def transitiveDeps (seed : List Nat) (packages : GoMap String Package) :
    GoMap pkg.ID pkg.Package :=
  (mapRange seed packages).foldl
    (fun transitive e => mapSet transitive (pkgIdOf e.2) { ID := pkgIdOf e.2 }) []

/-- Function `AnalyzeCabal` from line 102 on: the classification of the decoded plan. -/
def AnalyzeCabal (ord : IterOrder) (plan : CabalPlan) : graph.Deps :=
  let packages := buildPool plan
  let st1 := findOurProjects ord.pool packages
  let st2 := directImports ord st1.1 st1.2
  { Direct := st2.2, Transitive := transitiveDeps ord.transitive st2.1 }

/-- Go `strings.Split` on character lists, for a separator of one character: the pieces
between the occurrences of `sep`, one more than there are occurrences. -/
def splitChars (sep : Char) : List Char → List (List Char)
  | [] => [[]]
  | c :: cs =>
    if c = sep then [] :: splitChars sep cs
    else match splitChars sep cs with
      | [] => [[c]]
      | w :: ws => (c :: w) :: ws

/-- Go `strings.Split(s, sep)` for a separator of one character. -/
def Split (s : String) (sep : Char) : List String :=
  (splitChars sep s.data).map String.mk

/-- The body of the loop of lines 242-258 over the lines still to read, on the state
`(seen, acc)` where `acc` is what the consumer has built; `none` is a run-time panic
(index out of range at line 249 or 250). -/
def foldLines {σ : Type} (consume : σ → String → String → σ) :
    List String → GoMap String Bool × σ → Option (GoMap String Bool × σ)
  | [], st => some st
  | line :: rest, st =>
    if (Split line ' ').length < 2 then foldLines consume rest st
    else
      match (Split line ' ')[0]?, (Split line ' ')[1]? with
      | some name, some version =>
        match mapGet st.1 line with
        | some _ => foldLines consume rest st
        | none => foldLines consume rest (mapSet st.1 line true, consume st.2 name version)
      | _, _ => none

/-- Function `FoldStackDeps`: the map `seen` is shared with the caller, so the updated map is
returned; the consumer is a closure over the caller's variable, so it is a function on
the value `acc` of that variable. -/
def FoldStackDeps {σ : Type} (seen : GoMap String Bool) (depsOutput : String)
    (consume : σ → String → String → σ) (acc : σ) : Option (GoMap String Bool × σ) :=
  foldLines consume (Split depsOutput '\n') (seen, acc)

/-- The consumer of lines 207-216. -/
def consumeImport (imports : List pkg.Import) (name version : String) : List pkg.Import :=
  (imports ++
    [{ Resolved := { «Type» := pkg.«Type».Haskell, Name := name, Revision := version } }])

/-- The consumer of lines 221-231. -/
def consumeTransitive (transitive : GoMap pkg.ID pkg.Package) (name version : String) :
    GoMap pkg.ID pkg.Package :=
  mapSet transitive { «Type» := pkg.«Type».Haskell, Name := name, Revision := version }
    { ID := { «Type» := pkg.«Type».Haskell, Name := name, Revision := version } }

/-- Function `AnalyzeStack` from line 201 on, given the two captured outputs; `none` is a
run-time panic. -/
def AnalyzeStackFrom (localDepsStdout allDepsStdout : String) : Option graph.Deps :=
  match FoldStackDeps [] localDepsStdout consumeImport [] with
  | none => none
  | some (seen, imports) =>
    match FoldStackDeps seen allDepsStdout consumeTransitive [] with
    | none => none
    | some (_, transitive) => some { Direct := imports, Transitive := transitive }

end haskell

/-! ## Notions used to state the properties of the plan-based extractor -/

namespace haskell

open gomap

/-- The direct-import entry appended for a claimed package (lines 129-136, 145-152). -/
def importOf (p : Package) : pkg.Import := { Resolved := pkgIdOf p }

/-- The plan-local id `id` occurs in the top-level dependency list of `p` or in the
dependency list of one of its components. -/
def dependsOn (p : Package) (id : String) : Bool :=
  decide (id ∈ p.Depends) || p.Components.any (fun c => decide (id ∈ c.2.Depends))

/-- The plan-local id `id` is declared as a dependency by an our-project package of the pool. -/
def referenced (pool : GoMap String Package) (id : String) : Bool :=
  pool.any (fun e => isOurProject e.2 && dependsOn e.2 id)

/-- The list `ourProjects` after the loop of lines 113-118. -/
def ourProjectsOf (ord : IterOrder) (plan : CabalPlan) : List Package :=
  (findOurProjects ord.pool (buildPool plan)).1

/-- The map `packages` after the loop of lines 113-118. -/
def poolAfterPartition (ord : IterOrder) (plan : CabalPlan) : GoMap String Package :=
  (findOurProjects ord.pool (buildPool plan)).2

/-- The map `packages` after the loop of lines 123-156. -/
def poolAfterImports (ord : IterOrder) (plan : CabalPlan) : GoMap String Package :=
  (directImports ord (ourProjectsOf ord plan) (poolAfterPartition ord plan)).1

/-- The pool entry was classified as one of our projects: the loop of lines 113-118 put
its package on `ourProjects`. -/
def classifiedOurs (ord : IterOrder) (plan : CabalPlan) (e : String × Package) : Prop :=
  e.2 ∈ ourProjectsOf ord plan

/-- The pool entry was classified as a direct import: the loop of lines 123-156 took it
out of `packages`. -/
def classifiedDirect (ord : IterOrder) (plan : CabalPlan) (e : String × Package) : Prop :=
  e ∈ poolAfterPartition ord plan ∧ e ∉ poolAfterImports ord plan

/-- The pool entry was classified as transitive-only: it is still in `packages` when the
loop of lines 162-171 starts. -/
def classifiedTransitive (ord : IterOrder) (plan : CabalPlan) (e : String × Package) : Prop :=
  e ∈ poolAfterImports ord plan

/-- All dependency ids walked by the loop of lines 123-156, in the order they are walked. -/
def walkedDeps (ord : IterOrder) (ourProjects : List Package) : List String :=
  ourProjects.flatMap (fun project =>
    project.Depends ++
      (mapRange (ord.components project) project.Components).flatMap (fun c => c.2.Depends))

end haskell

namespace haskell

open gomap

/-- The order in which every `range` visits the entries as they are stored. -/
def storedOrder : IterOrder := { pool := [], components := fun _ => [], transitive := [] }

/-- The local package `app` of the end-to-end example, depending on `p1` and `p2`. -/
def appPackage : Package :=
  { «Type» := "configured", Id := "app-0.1.0-inplace", Name := "app", Version := "0.1.0",
    Components := [], Depends := ["p1", "p2"], Style := "local" }

/-- The package `p1` of the end-to-end example. -/
def libA : Package :=
  { «Type» := "configured", Id := "p1", Name := "lib-a", Version := "1.0.0",
    Components := [], Depends := [], Style := "global" }

/-- The package `p2` of the end-to-end example, depending on `p3`. -/
def libB : Package :=
  { «Type» := "configured", Id := "p2", Name := "lib-b", Version := "2.0.0",
    Components := [], Depends := ["p3"], Style := "global" }

/-- The package `p3` of the end-to-end example. -/
def libC : Package :=
  { «Type» := "pre-existing", Id := "p3", Name := "lib-c", Version := "0.1.0",
    Components := [], Depends := [], Style := "" }

/-- The plan of the end-to-end example. -/
def examplePlan : CabalPlan := { Packages := [appPackage, libA, libB, libC] }

/-- The graph expected for the end-to-end example. -/
def exampleDeps : graph.Deps :=
  { Direct := [importOf libA, importOf libB],
    Transitive := [(pkgIdOf libC, { ID := pkgIdOf libC })] }

/-- A local package whose component `exe:tool` depends on the library unit of `conv-1.2`. -/
def toolProject : Package :=
  { «Type» := "configured", Id := "tool-0.1-inplace", Name := "tool", Version := "0.1",
    Components := [("exe:tool", { Depends := ["conv-1.2-lib"] })], Depends := [],
    Style := "local" }

/-- The library unit of the external package `conv-1.2`. -/
def convLib : Package :=
  { «Type» := "configured", Id := "conv-1.2-lib", Name := "conv", Version := "1.2",
    Components := [], Depends := [], Style := "global" }

/-- The executable unit of the same external package `conv-1.2`: another plan-local id,
the same name and version. -/
def convExe : Package :=
  { «Type» := "configured", Id := "conv-1.2-exe", Name := "conv", Version := "1.2",
    Components := [], Depends := ["conv-1.2-lib"], Style := "global" }

/-- A plan in which two units share one name and version. -/
def sharedIdentityPlan : CabalPlan := { Packages := [toolProject, convLib, convExe] }

/-- A plan without local packages in which two units share one name and version. -/
def twoUnitsPlan : CabalPlan := { Packages := [convLib, convExe] }

end haskell

/-! ## Notions used to state the properties of the listing-based extractor -/

namespace haskell

open gomap

/-- A valid line: splitting it on a single space gives at least two parts, so the test of
line 245 does not skip it. -/
def validLine (line : String) : Bool := decide (2 ≤ (Split line ' ').length)

/-- The text of a line before its first space. -/
def lineName (line : String) : String :=
  String.mk (line.data.takeWhile (fun c => decide (c ≠ ' ')))

/-- The text of a line between its first space and its second space (or the end of the
line when there is no second space). -/
def lineVersion (line : String) : String :=
  String.mk (((line.data.dropWhile (fun c => decide (c ≠ ' '))).drop 1).takeWhile
    (fun c => decide (c ≠ ' ')))

/-- The identity read from a line. -/
def lineId (line : String) : pkg.ID :=
  { «Type» := pkg.«Type».Haskell, Name := lineName line, Revision := lineVersion line }

/-- The elements of a list that are not in `seen`, each kept once, at its first occurrence. -/
def firstOccFrom {α : Type} [DecidableEq α] : List α → List α → List α
  | _, [] => []
  | seen, x :: xs =>
    if x ∈ seen then firstOccFrom seen xs else x :: firstOccFrom (seen ++ [x]) xs

/-- The lines of a listing for which the consumer is to be invoked, given the texts seen
before: the valid lines not seen before, each at its first occurrence. -/
def newLines (seenKeys : List String) (depsOutput : String) : List String :=
  firstOccFrom seenKeys ((Split depsOutput '\n').filter validLine)

/-- One invocation of the consumer, for a line. -/
def consumeLine {σ : Type} (consume : σ → String → String → σ) (acc : σ) (line : String) : σ :=
  consume acc (lineName line) (lineVersion line)

/-- Modelled from the spec: the whitespace-delimited fields of a line, the maximal runs of
characters that are not white space. -/
def whitespaceFields (line : String) : List String :=
  ((line.data.splitOnP Char.isWhitespace).filter (fun w => !w.isEmpty)).map String.mk

/-- A consumer that records its invocations. -/
def recordCall (calls : List (String × String)) (name version : String) :
    List (String × String) :=
  calls ++ [(name, version)]

end haskell

/-! ## The methods of `Analyzer` with their collaborators -/

namespace haskell

open gomap

/-- Go `type Options struct`. -/
structure Options where
  Strategy : String
deriving DecidableEq

/-- Go `type Analyzer struct`; the field `Module` only gives the directory of the plan
file, whose presence and content are inputs here. -/
structure Analyzer where
  Options : Options
deriving DecidableEq

/-- What a call of `exec.Run` gave: the captured standard output and the error value
(`none` is Go's `nil`). -/
structure RunResult where
  stdout : String
  err : Option String
deriving DecidableEq

/-- What the collaborators of `AnalyzeCabal` gave, in the order they are asked: the two
calls of `files.Exists`, the dry-run build, the error of `files.ReadJSON`, the result of
`mapstructure.Decode`, and the orders of the `range` loops. -/
structure CabalRun where
  planExists : Bool
  dryRun : RunResult
  planExistsAfter : Bool
  readJSON : Option String
  decode : Except String CabalPlan
  order : IterOrder

/-- What a method call did: it returned Go's pair `(graph.Deps, error)`, or it panicked. -/
inductive Outcome where
  | returned (deps : graph.Deps) (err : Option String)
  | panicked (message : String)
deriving DecidableEq

/-- Go `graph.Deps{}`. -/
def emptyDeps : graph.Deps := { Direct := [], Transitive := [] }

namespace Analyzer

/-- Method `AnalyzeCabal`, lines 71-179. -/
def AnalyzeCabal (run : CabalRun) : Outcome :=
  match (if run.planExists then none else run.dryRun.err) with
  | some err => Outcome.returned emptyDeps (some err)
  | none =>
    if ¬ run.planExistsAfter then
      Outcome.returned emptyDeps (some "Couldn't find or generate cabal solver plan")
    else
      match run.readJSON with
      | some err => Outcome.returned emptyDeps (some err)
      | none =>
        match run.decode with
        | Except.error err => Outcome.returned emptyDeps (some err)
        | Except.ok plan => Outcome.returned (haskell.AnalyzeCabal run.order plan) none

/-- Method `AnalyzeStack`, lines 181-239: the error of the first call is tested at line
192, the error of the second call is assigned at line 196 and not read again. -/
def AnalyzeStack (localRun allRun : RunResult) : Outcome :=
  match localRun.err with
  | some err => Outcome.returned emptyDeps (some err)
  | none =>
    match AnalyzeStackFrom localRun.stdout allRun.stdout with
    | none => Outcome.panicked "index out of range"
    | some deps => Outcome.returned deps none

/-- Method `Analyze`, lines 40-48. -/
def Analyze (a : Analyzer) (cabal : CabalRun) (localRun allRun : RunResult) : Outcome :=
  if a.Options.Strategy = "cabal-install" then AnalyzeCabal cabal
  else if a.Options.Strategy = "stack" then AnalyzeStack localRun allRun
  else Outcome.panicked ("Unknown haskell analysis strategy: " ++ a.Options.Strategy)

end Analyzer

/-- The first call succeeds with one line, the second call fails. -/
def localRunOk : RunResult := { stdout := "pkg-a 1.0.0", err := none }

/-- A failed call of `stack ls dependencies`. -/
def allRunFailed : RunResult := { stdout := "", err := some "exit status 1" }

/-- A local package that lists itself and `p1` among its dependencies. -/
def selfProject : Package :=
  { «Type» := "configured", Id := "self-0.1-inplace", Name := "self", Version := "0.1",
    Components := [("lib", { Depends := ["self-0.1-inplace", "p1"] })],
    Depends := ["self-0.1-inplace"], Style := "local" }

/-- A plan with a local package that refers to itself. -/
def selfReferencePlan : CabalPlan := { Packages := [selfProject, libA] }

/-- A plan without local packages. -/
def noLocalPlan : CabalPlan := { Packages := [libA, libB, libC] }

/-- The plan-local id `id` is the key of a pool entry that is one of our projects. -/
def isOurId (pool : GoMap String Package) (id : String) : Bool :=
  pool.any (fun e => decide (e.1 = id) && isOurProject e.2)

end haskell

namespace haskell

open gomap

/-- The plan of the end-to-end example together with the two units of `conv-1.2`, which
`app` does not declare as dependencies. -/
def mixedPlan : CabalPlan :=
  { Packages := [appPackage, libA, libB, libC, convLib, convExe] }

/-- The text `l` is a piece of `text` cut at the character `sep`: it does not contain
`sep`, it starts at the start of `text` or right after a `sep`, and it ends at the end of
`text` or right before a `sep`. -/
def isPieceOf (sep : Char) (l text : List Char) : Prop :=
  sep ∉ l ∧ ∃ before after : List Char, text = before ++ l ++ after ∧
    (before = [] ∨ ∃ p, before = p ++ [sep]) ∧ (after = [] ∨ ∃ q, after = sep :: q)

/-- The text `l` is a line of `text`: a piece of it cut at the line feeds. -/
def isLineOf (l text : String) : Prop := isPieceOf '\n' l.data text.data

end haskell

/-! ## Facts about Go maps -/

namespace gomap

theorem pickAt_perm {α : Type} (n : Nat) (x : α) (xs : List α) :
    ((pickAt n x xs).1 :: (pickAt n x xs).2).Perm (x :: xs) := by
  induction n generalizing x xs with
  | zero => simp [pickAt]
  | succ n ih =>
    cases xs with
    | nil => simp [pickAt]
    | cons y ys =>
      simp only [pickAt]
      exact (List.Perm.swap _ _ _).trans ((ih y ys).cons x)

theorem shuffle_perm {α : Type} (seed : List Nat) (l : List α) : (shuffle seed l).Perm l := by
  induction seed generalizing l with
  | nil => simp [shuffle]
  | cons n seed ih =>
    cases l with
    | nil => simp [shuffle]
    | cons x xs =>
      simp only [shuffle]
      exact ((ih _).cons _).trans (pickAt_perm n x xs)

theorem mem_shuffle {α : Type} (seed : List Nat) (l : List α) (a : α) :
    a ∈ shuffle seed l ↔ a ∈ l := (shuffle_perm seed l).mem_iff

theorem shuffle_nil {α : Type} (seed : List Nat) : shuffle seed ([] : List α) = [] := by
  cases seed <;> rfl

theorem shuffle_singleton {α : Type} (seed : List Nat) (a : α) : shuffle seed [a] = [a] :=
  List.perm_singleton.1 (shuffle_perm seed [a])

/-- Every order of visiting the entries is selected by some seed. -/
theorem pickAt_surj {α : Type} (x : α) (xs : List α) (a : α) (l : List α)
    (h : (a :: l).Perm (x :: xs)) : ∃ n r, pickAt n x xs = (a, r) ∧ l.Perm r := by
  induction xs generalizing x l with
  | nil =>
    have := List.perm_singleton.1 h
    simp at this
    exact ⟨0, [], by simp [pickAt, this.1], by simp [this.2]⟩
  | cons y ys ih =>
    by_cases hax : a = x
    · subst hax
      exact ⟨0, y :: ys, by simp [pickAt], (List.Perm.cons_inv h)⟩
    · have hmem : a ∈ x :: y :: ys := h.subset (List.mem_cons_self _ _)
      have hmem2 : a ∈ y :: ys := by
        rcases List.mem_cons.1 hmem with h1 | h1
        · exact absurd h1 hax
        · exact h1
      have hx : x ∈ l := by
        have : x ∈ a :: l := h.symm.subset (List.mem_cons_self _ _)
        rcases List.mem_cons.1 this with h1 | h1
        · exact absurd h1.symm hax
        · exact h1
      obtain ⟨l', hl'⟩ : ∃ l', l.Perm (x :: l') := by
        obtain ⟨s, t, rfl⟩ := List.append_of_mem hx
        exact ⟨s ++ t, List.perm_middle⟩
      have h2 : (a :: l').Perm (y :: ys) := by
        have : (x :: a :: l').Perm (x :: y :: ys) :=
          ((List.Perm.swap _ _ _).trans ((hl'.symm.cons a).trans h))
        exact List.Perm.cons_inv this
      obtain ⟨n, r, hn, hr⟩ := ih y l' h2
      refine ⟨n + 1, x :: r, by simp [pickAt, hn], hl'.trans (hr.cons x)⟩

theorem shuffle_surj {α : Type} (l l' : List α) (h : l'.Perm l) :
    ∃ seed, shuffle seed l = l' := by
  induction l' generalizing l with
  | nil =>
    have := h.symm.eq_nil
    exact ⟨[], by simp [shuffle, this]⟩
  | cons a t ih =>
    cases l with
    | nil => exact absurd h.eq_nil (by simp)
    | cons x xs =>
      obtain ⟨n, r, hn, hr⟩ := pickAt_surj x xs a t h
      obtain ⟨seed, hs⟩ := ih r hr
      exact ⟨n :: seed, by simp [shuffle, hn, hs]⟩

theorem mapGet_eq_none {κ ν : Type} [DecidableEq κ] (m : GoMap κ ν) (k : κ) : mapGet m k = none ↔ k ∉ mapKeys m := by
  induction m with
  | nil => simp [mapGet, mapKeys]
  | cons e rest ih =>
    obtain ⟨k', v⟩ := e
    simp only [mapGet, mapKeys, List.map_cons, List.mem_cons, not_or] at ih ⊢
    by_cases h : k' = k
    · simp [h]
    · simp [h, ih, mapKeys, Ne.symm h]

theorem mapGet_mem {κ ν : Type} [DecidableEq κ] (m : GoMap κ ν) (k : κ) (v : ν) (h : mapGet m k = some v) : (k, v) ∈ m := by
  induction m with
  | nil => simp [mapGet] at h
  | cons e rest ih =>
    obtain ⟨k', v'⟩ := e
    simp only [mapGet] at h
    by_cases hk : k' = k
    · simp [hk] at h
      simp [hk, h]
    · simp [hk] at h
      exact List.mem_cons_of_mem _ (ih h)

theorem mapGet_of_mem {κ ν : Type} [DecidableEq κ] (m : GoMap κ ν) (hnd : (mapKeys m).Nodup) (k : κ) (v : ν)
    (h : (k, v) ∈ m) : mapGet m k = some v := by
  induction m with
  | nil => simp at h
  | cons e rest ih =>
    obtain ⟨k', v'⟩ := e
    simp only [mapKeys, List.map_cons, List.nodup_cons] at hnd
    simp only [mapGet]
    rcases List.mem_cons.1 h with h1 | h1
    · simp at h1
      simp [h1.1, h1.2]
    · have : k' ≠ k := by
        rintro rfl
        exact hnd.1 (List.mem_map.2 ⟨(k', v), h1, rfl⟩)
      simp [this]
      exact ih hnd.2 h1

theorem mapKeys_mapSet {κ ν : Type} [DecidableEq κ] (m : GoMap κ ν) (k : κ) (v : ν) :
    mapKeys (mapSet m k v) = if k ∈ mapKeys m then mapKeys m else mapKeys m ++ [k] := by
  induction m with
  | nil => simp [mapSet, mapKeys]
  | cons e rest ih =>
    obtain ⟨k', v'⟩ := e
    simp only [mapSet]
    by_cases hk : k' = k
    · simp [hk, mapKeys]
    · have hk' : ¬ k = k' := fun h => hk h.symm
      simp only [hk, if_false, mapKeys, List.map_cons, List.mem_cons, hk', false_or] at ih ⊢
      rw [ih]
      split <;> simp

theorem mem_mapKeys_mapSet {κ ν : Type} [DecidableEq κ] (m : GoMap κ ν) (k : κ) (v : ν) (k' : κ) :
    k' ∈ mapKeys (mapSet m k v) ↔ k' = k ∨ k' ∈ mapKeys m := by
  rw [mapKeys_mapSet]
  split
  · constructor
    · exact Or.inr
    · rintro (h | h)
      · subst h; assumption
      · exact h
  · simp [or_comm]

theorem nodup_mapKeys_mapSet {κ ν : Type} [DecidableEq κ] (m : GoMap κ ν) (k : κ) (v : ν) (h : (mapKeys m).Nodup) :
    (mapKeys (mapSet m k v)).Nodup := by
  rw [mapKeys_mapSet]
  split
  · exact h
  · rename_i hk
    exact List.nodup_append.2 ⟨h, List.nodup_singleton k, by
      intro a ha hak
      exact hk ((List.mem_singleton.1 hak) ▸ ha)⟩

theorem length_mapSet_le {κ ν : Type} [DecidableEq κ] (m : GoMap κ ν) (k : κ) (v : ν) :
    (mapSet m k v).length ≤ m.length + 1 := by
  induction m with
  | nil => simp [mapSet]
  | cons e rest ih =>
    obtain ⟨k', v'⟩ := e
    simp only [mapSet]
    split <;> simp [ih]

theorem mapGet_mapSet {κ ν : Type} [DecidableEq κ] (m : GoMap κ ν) (k : κ) (v : ν) (k' : κ) :
    mapGet (mapSet m k v) k' = if k = k' then some v else mapGet m k' := by
  induction m with
  | nil => simp [mapSet, mapGet]
  | cons e rest ih =>
    obtain ⟨k1, v1⟩ := e
    simp only [mapSet]
    by_cases hk : k1 = k
    · subst hk
      simp only [if_true, mapGet]
      by_cases h2 : k1 = k' <;> simp [h2]
    · simp only [hk, if_false, mapGet, ih]
      by_cases h2 : k1 = k'
      · subst h2
        simp [Ne.symm hk]
      · simp [h2]

theorem mem_mapSet {κ ν : Type} [DecidableEq κ] (m : GoMap κ ν) (k : κ) (v : ν) (e : κ × ν) (h : e ∈ mapSet m k v) :
    e = (k, v) ∨ e ∈ m := by
  induction m with
  | nil => simpa [mapSet] using h
  | cons e' rest ih =>
    obtain ⟨k1, v1⟩ := e'
    simp only [mapSet] at h
    by_cases hk : k1 = k
    · simp only [hk, if_true, List.mem_cons] at h
      rcases h with h | h
      · exact Or.inl h
      · exact Or.inr (List.mem_cons_of_mem _ h)
    · simp only [hk, if_false, List.mem_cons] at h
      rcases h with h | h
      · exact Or.inr (by simp [h])
      · rcases ih h with h | h
        · exact Or.inl h
        · exact Or.inr (List.mem_cons_of_mem _ h)

theorem nodup_mapKeys_filter {κ ν : Type} (m : GoMap κ ν) (p : κ × ν → Bool) (h : (mapKeys m).Nodup) :
    (mapKeys (m.filter p)).Nodup :=
  List.Nodup.sublist ((List.filter_sublist m).map Prod.fst) h

/-- In a map with distinct keys an entry is determined by its key. -/
theorem entry_unique {κ ν : Type} [DecidableEq κ] (m : GoMap κ ν) (h : (mapKeys m).Nodup) (k : κ) (v v' : ν)
    (h1 : (k, v) ∈ m) (h2 : (k, v') ∈ m) : v = v' := by
  have a := mapGet_of_mem m h k v h1
  have b := mapGet_of_mem m h k v' h2
  rw [a] at b
  exact Option.some.inj b

end gomap

/-! ## The plan-based extractor -/

namespace haskell

open gomap

theorem mem_buildPool_aux (ps : List Package) (m : GoMap String Package)
    (hm : ∀ e ∈ m, e.2.Id = e.1) :
    ∀ e ∈ ps.foldl (fun packages p => mapSet packages p.Id p) m,
      e.2.Id = e.1 ∧ (e ∈ m ∨ e.2 ∈ ps) := by
  induction ps generalizing m with
  | nil => intro e he; exact ⟨hm e he, Or.inl he⟩
  | cons p ps ih =>
    intro e he
    simp only [List.foldl_cons] at he
    have hm' : ∀ e ∈ mapSet m p.Id p, e.2.Id = e.1 := by
      intro e he
      rcases mem_mapSet m p.Id p e he with h | h
      · rw [h]
      · exact hm e h
    obtain ⟨h1, h2⟩ := ih (mapSet m p.Id p) hm' e he
    refine ⟨h1, ?_⟩
    rcases h2 with h2 | h2
    · rcases mem_mapSet m p.Id p e h2 with h | h
      · right; rw [h]; exact List.mem_cons_self _ _
      · exact Or.inl h
    · exact Or.inr (List.mem_cons_of_mem _ h2)

theorem nodup_buildPool_aux (ps : List Package) (m : GoMap String Package)
    (hm : (mapKeys m).Nodup) :
    (mapKeys (ps.foldl (fun packages p => mapSet packages p.Id p) m)).Nodup := by
  induction ps generalizing m with
  | nil => exact hm
  | cons p ps ih => exact ih _ (nodup_mapKeys_mapSet m p.Id p hm)

/-- The keys of the pool are distinct. -/
theorem nodup_buildPool (plan : CabalPlan) : (mapKeys (buildPool plan)).Nodup :=
  nodup_buildPool_aux plan.Packages [] (by simp [mapKeys])

/-- Every pool entry is a package of the plan, stored under its own id. -/
theorem mem_buildPool (plan : CabalPlan) (e : String × Package) (he : e ∈ buildPool plan) :
    e.2.Id = e.1 ∧ e.2 ∈ plan.Packages := by
  have := mem_buildPool_aux plan.Packages [] (by simp) e he
  simpa using this

theorem foldl_partitionStep (l : List (String × Package)) (acc : List Package)
    (m : GoMap String Package) :
    l.foldl partitionStep (acc, m) =
      (acc ++ (l.filter (fun e => isOurProject e.2)).map Prod.snd,
        m.filter (fun e => decide (e.1 ∉ (l.filter (fun e => isOurProject e.2)).map Prod.fst))) := by
  induction l generalizing acc m with
  | nil => simp
  | cons e l ih =>
    simp only [List.foldl_cons, partitionStep]
    by_cases h : isOurProject e.2 = true
    · simp only [h, if_true, ih, List.filter_cons_of_pos, List.map_cons, mapDelete,
        List.filter_filter, List.mem_cons, not_or]
      refine Prod.ext (by simp) ?_
      simp only
      apply List.filter_congr
      intro x _
      simp [Bool.and_comm]
    · rw [List.filter_cons_of_neg (by simpa using h)]
      have hf : isOurProject e.2 = false := by simpa using h
      simp only [hf, Bool.false_eq_true, if_false, ih]

/-- The outcome of the loop of lines 113-118. -/
theorem findOurProjects_eq (seed : List Nat) (m : GoMap String Package)
    (hnd : (mapKeys m).Nodup) :
    findOurProjects seed m =
      (((mapRange seed m).filter (fun e => isOurProject e.2)).map Prod.snd,
        m.filter (fun e => !isOurProject e.2)) := by
  unfold findOurProjects
  rw [foldl_partitionStep]
  refine Prod.ext (by simp) ?_
  simp only
  apply List.filter_congr
  intro x hx
  by_cases hox : isOurProject x.2 = true
  · have : x.1 ∈ ((mapRange seed m).filter (fun e => isOurProject e.2)).map Prod.fst :=
      List.mem_map.2 ⟨x, List.mem_filter.2 ⟨(mem_shuffle seed m x).2 hx, hox⟩, rfl⟩
    simp [hox, this]
  · have : x.1 ∉ ((mapRange seed m).filter (fun e => isOurProject e.2)).map Prod.fst := by
      intro hmem
      obtain ⟨y, hy, hyx⟩ := List.mem_map.1 hmem
      obtain ⟨hy1, hy2⟩ := List.mem_filter.1 hy
      have hy1 : y ∈ m := (mem_shuffle seed m y).1 hy1
      have : y.2 = x.2 := by
        apply entry_unique m hnd x.1
        · rw [← hyx]; exact hy1
        · exact hx
      rw [this] at hy2
      exact hox hy2
    simp [hox, this]

theorem filter_key_eq (m : GoMap String Package) (hnd : (mapKeys m).Nodup) (d : String)
    (dep : Package) (h : (d, dep) ∈ m) :
    m.filter (fun e => decide (e.1 = d)) = [(d, dep)] := by
  induction m with
  | nil => simp at h
  | cons e rest ih =>
    simp only [mapKeys, List.map_cons, List.nodup_cons] at hnd
    rcases List.mem_cons.1 h with h1 | h1
    · subst h1
      have : rest.filter (fun e => decide (e.1 = d)) = [] := by
        apply List.filter_eq_nil_iff.2
        intro a ha
        simp only [decide_eq_true_eq]
        intro hd
        exact hnd.1 (List.mem_map.2 ⟨a, ha, hd⟩)
      simp [this]
    · have hne : e.1 ≠ d := by
        intro hd
        exact hnd.1 (List.mem_map.2 ⟨(d, dep), h1, hd.symm⟩)
      simp only [List.filter_cons, hne, decide_False, Bool.false_eq_true, if_false]
      exact ih hnd.2 h1

/-- The outcome of walking a list of dependency ids: the ids that occur are taken out of
the pool, and one import is appended for each pool entry taken out. -/
theorem foldl_claimDep (ds : List String) (m : GoMap String Package)
    (imps : List pkg.Import) (hnd : (mapKeys m).Nodup) :
    (ds.foldl claimDep (m, imps)).1 = m.filter (fun e => decide (e.1 ∉ ds)) ∧
    ∃ added, (ds.foldl claimDep (m, imps)).2 = imps ++ added ∧
      added.Perm ((m.filter (fun e => decide (e.1 ∈ ds))).map (fun e => importOf e.2)) := by
  induction ds generalizing m imps with
  | nil => simp
  | cons d ds ih =>
    simp only [List.foldl_cons]
    cases hget : mapGet m d with
    | none =>
      have hd : d ∉ mapKeys m := (mapGet_eq_none m d).1 hget
      have hst : claimDep (m, imps) d = (m, imps) := by simp [claimDep, hget]
      rw [hst]
      obtain ⟨h1, added, h2, h3⟩ := ih m imps hnd
      have hne : ∀ x ∈ m, x.1 ≠ d := by
        intro x hx hxd
        exact hd (List.mem_map.2 ⟨x, hx, hxd⟩)
      refine ⟨?_, added, h2, ?_⟩
      · rw [h1]
        apply List.filter_congr
        intro x hx
        simp [hne x hx]
      · have : m.filter (fun e => decide (e.1 ∈ d :: ds)) = m.filter (fun e => decide (e.1 ∈ ds)) := by
          apply List.filter_congr
          intro x hx
          simp [hne x hx]
        rw [this]
        exact h3
    | some dep =>
      have hmem : (d, dep) ∈ m := mapGet_mem m d dep hget
      have hst : claimDep (m, imps) d = (mapDelete m d, imps ++ [importOf dep]) := by
        simp [claimDep, hget, importOf]
      rw [hst]
      obtain ⟨h1, added, h2, h3⟩ :=
        ih (mapDelete m d) (imps ++ [importOf dep]) (nodup_mapKeys_filter m _ hnd)
      refine ⟨?_, importOf dep :: added, ?_, ?_⟩
      · rw [h1, mapDelete, List.filter_filter]
        apply List.filter_congr
        intro x _
        simp [Bool.and_comm]
      · rw [h2]; simp
      · have hsplit := List.filter_append_perm (fun e : String × Package => decide (e.1 = d))
          (m.filter (fun e => decide (e.1 ∈ d :: ds)))
        rw [List.filter_filter, List.filter_filter] at hsplit
        have e1 : m.filter (fun a => decide (a.1 = d) && decide (a.1 ∈ d :: ds))
            = [(d, dep)] := by
          rw [← filter_key_eq m hnd d dep hmem]
          apply List.filter_congr
          intro x _
          by_cases hx : x.1 = d <;> simp [hx]
        have e2 : m.filter (fun a => (!decide (a.1 = d)) && decide (a.1 ∈ d :: ds))
            = (mapDelete m d).filter (fun e => decide (e.1 ∈ ds)) := by
          rw [mapDelete, List.filter_filter]
          apply List.filter_congr
          intro x _
          by_cases hx : x.1 = d <;> simp [hx]
        rw [e1, e2] at hsplit
        have := (hsplit.map (fun e => importOf e.2)).symm
        simp only [List.map_append, List.map_cons, List.map_nil, List.singleton_append] at this
        exact (h3.cons _).trans this.symm

theorem foldl_flatMap_eq {α β γ : Type} (f : α → List β) (g : γ → β → γ) (l : List α) (init : γ) :
    l.foldl (fun s a => (f a).foldl g s) init = (l.flatMap f).foldl g init := by
  induction l generalizing init with
  | nil => simp
  | cons a l ih => simp [List.flatMap_cons, List.foldl_append, ih]

/-- The loop of lines 123-156 is one walk over all declared dependency ids. -/
theorem directImports_eq (ord : IterOrder) (ourProjects : List Package)
    (packages : GoMap String Package) :
    directImports ord ourProjects packages =
      (walkedDeps ord ourProjects).foldl claimDep (packages, []) := by
  unfold directImports walkedDeps
  rw [← foldl_flatMap_eq]
  congr 1
  funext st project
  simp only [scanProject, List.foldl_append]
  rw [foldl_flatMap_eq]

end haskell

namespace haskell

open gomap

theorem dependsOn_iff (p : Package) (id : String) :
    dependsOn p id = true ↔ id ∈ p.Depends ∨ ∃ c ∈ p.Components, id ∈ c.2.Depends := by
  simp [dependsOn]

theorem referenced_iff (pool : GoMap String Package) (id : String) :
    referenced pool id = true ↔
      ∃ e ∈ pool, isOurProject e.2 = true ∧
        (id ∈ e.2.Depends ∨ ∃ c ∈ e.2.Components, id ∈ c.2.Depends) := by
  simp only [referenced, List.any_eq_true, Bool.and_eq_true, dependsOn_iff]

theorem mem_walkedDeps (ord : IterOrder) (ourProjects : List Package) (id : String) :
    id ∈ walkedDeps ord ourProjects ↔ ∃ p ∈ ourProjects, dependsOn p id = true := by
  simp only [walkedDeps, List.mem_flatMap, List.mem_append, mapRange, mem_shuffle, dependsOn_iff]

theorem mem_ourProjectsOf (ord : IterOrder) (plan : CabalPlan) (p : Package) :
    p ∈ ourProjectsOf ord plan ↔ (p.Id, p) ∈ buildPool plan ∧ isOurProject p = true := by
  unfold ourProjectsOf
  rw [findOurProjects_eq _ _ (nodup_buildPool plan)]
  simp only [List.mem_map, List.mem_filter, mapRange, mem_shuffle]
  constructor
  · rintro ⟨e, ⟨he, ho⟩, rfl⟩
    have := (mem_buildPool plan e he).1
    refine ⟨?_, ho⟩
    rw [this]
    exact he
  · rintro ⟨h1, h2⟩
    exact ⟨(p.Id, p), ⟨h1, h2⟩, rfl⟩

theorem mem_walkedDeps_ours (ord : IterOrder) (plan : CabalPlan) (id : String) :
    id ∈ walkedDeps ord (ourProjectsOf ord plan) ↔ referenced (buildPool plan) id = true := by
  rw [mem_walkedDeps]
  simp only [referenced, List.any_eq_true, Bool.and_eq_true, mem_ourProjectsOf]
  constructor
  · rintro ⟨p, ⟨h1, h2⟩, h3⟩
    exact ⟨(p.Id, p), h1, h2, h3⟩
  · rintro ⟨e, h1, h2, h3⟩
    refine ⟨e.2, ⟨?_, h2⟩, h3⟩
    rw [(mem_buildPool plan e h1).1]
    exact h1

/-- After the loop of lines 113-118 the pool holds the packages that are not ours. -/
theorem poolAfterPartition_eq (ord : IterOrder) (plan : CabalPlan) :
    poolAfterPartition ord plan = (buildPool plan).filter (fun e => !isOurProject e.2) := by
  unfold poolAfterPartition
  rw [findOurProjects_eq _ _ (nodup_buildPool plan)]

theorem nodup_poolAfterPartition (ord : IterOrder) (plan : CabalPlan) :
    (mapKeys (poolAfterPartition ord plan)).Nodup := by
  rw [poolAfterPartition_eq]
  exact nodup_mapKeys_filter _ _ (nodup_buildPool plan)

/-- After the loop of lines 123-156 the pool holds the packages that are neither ours nor
declared as a dependency by one of ours. -/
theorem poolAfterImports_eq (ord : IterOrder) (plan : CabalPlan) :
    poolAfterImports ord plan =
      (buildPool plan).filter (fun e => !isOurProject e.2 && !referenced (buildPool plan) e.1) := by
  unfold poolAfterImports
  rw [directImports_eq,
    (foldl_claimDep _ _ [] (nodup_poolAfterPartition ord plan)).1, poolAfterPartition_eq,
    List.filter_filter]
  apply List.filter_congr
  intro x _
  rw [Bool.and_comm]
  congr 1
  by_cases h : referenced (buildPool plan) x.1 = true
  · simp [h, (mem_walkedDeps_ours ord plan x.1).2 h]
  · have : x.1 ∉ walkedDeps ord (ourProjectsOf ord plan) :=
      fun hm => h ((mem_walkedDeps_ours ord plan x.1).1 hm)
    simp [h, this]

theorem nodup_poolAfterImports (ord : IterOrder) (plan : CabalPlan) :
    (mapKeys (poolAfterImports ord plan)).Nodup := by
  rw [poolAfterImports_eq]
  exact nodup_mapKeys_filter _ _ (nodup_buildPool plan)

theorem AnalyzeCabal_Direct (ord : IterOrder) (plan : CabalPlan) :
    (AnalyzeCabal ord plan).Direct =
      (directImports ord (ourProjectsOf ord plan) (poolAfterPartition ord plan)).2 := rfl

theorem AnalyzeCabal_Transitive (ord : IterOrder) (plan : CabalPlan) :
    (AnalyzeCabal ord plan).Transitive =
      transitiveDeps ord.transitive (poolAfterImports ord plan) := rfl

/-- The direct imports are, up to order, the imports of the pool packages that are not
ours and are declared as a dependency by one of ours. -/
theorem direct_perm (ord : IterOrder) (plan : CabalPlan) :
    (AnalyzeCabal ord plan).Direct.Perm
      (((buildPool plan).filter
        (fun e => !isOurProject e.2 && referenced (buildPool plan) e.1)).map
          (fun e => importOf e.2)) := by
  rw [AnalyzeCabal_Direct, directImports_eq]
  obtain ⟨added, h1, h2⟩ :=
    (foldl_claimDep (walkedDeps ord (ourProjectsOf ord plan)) (poolAfterPartition ord plan) []
      (nodup_poolAfterPartition ord plan)).2
  rw [h1, List.nil_append]
  refine h2.trans ?_
  rw [poolAfterPartition_eq, List.filter_filter]
  have : (buildPool plan).filter
      (fun a => decide (a.1 ∈ walkedDeps ord (ourProjectsOf ord plan)) && !isOurProject a.2)
      = (buildPool plan).filter
        (fun e => !isOurProject e.2 && referenced (buildPool plan) e.1) := by
    apply List.filter_congr
    intro x _
    rw [Bool.and_comm]
    congr 1
    by_cases h : referenced (buildPool plan) x.1 = true
    · simp [h, (mem_walkedDeps_ours ord plan x.1).2 h]
    · have : x.1 ∉ walkedDeps ord (ourProjectsOf ord plan) :=
        fun hm => h ((mem_walkedDeps_ours ord plan x.1).1 hm)
      simp [h, this]
  rw [this]

theorem foldl_transitive (l : List (String × Package)) (t : GoMap pkg.ID pkg.Package)
    (ht : (mapKeys t).Nodup) :
    (mapKeys (l.foldl (fun transitive e =>
        mapSet transitive (pkgIdOf e.2) { ID := pkgIdOf e.2 }) t)).Nodup ∧
    (∀ k, k ∈ mapKeys (l.foldl (fun transitive e =>
        mapSet transitive (pkgIdOf e.2) { ID := pkgIdOf e.2 }) t) ↔
        k ∈ mapKeys t ∨ ∃ e ∈ l, pkgIdOf e.2 = k) ∧
    (l.foldl (fun transitive e =>
        mapSet transitive (pkgIdOf e.2) { ID := pkgIdOf e.2 }) t).length ≤ t.length + l.length := by
  induction l generalizing t with
  | nil => simp [ht]
  | cons e l ih =>
    simp only [List.foldl_cons]
    obtain ⟨h1, h2, h3⟩ := ih (mapSet t (pkgIdOf e.2) { ID := pkgIdOf e.2 })
      (nodup_mapKeys_mapSet _ _ _ ht)
    refine ⟨h1, ?_, ?_⟩
    · intro k
      rw [h2, mem_mapKeys_mapSet]
      simp only [List.mem_cons, exists_eq_or_imp]
      constructor
      · rintro ((h | h) | h)
        · exact Or.inr (Or.inl h.symm)
        · exact Or.inl h
        · exact Or.inr (Or.inr h)
      · rintro (h | h | h)
        · exact Or.inl (Or.inr h)
        · exact Or.inl (Or.inl h.symm)
        · exact Or.inr h
    · have := length_mapSet_le t (pkgIdOf e.2) { ID := pkgIdOf e.2 }
      simp only [List.length_cons]
      omega

/-- The keys of the transitive map are the identities of the remaining pool packages. -/
theorem mem_keys_transitive (ord : IterOrder) (plan : CabalPlan) (k : pkg.ID) :
    k ∈ mapKeys (AnalyzeCabal ord plan).Transitive ↔
      ∃ e ∈ poolAfterImports ord plan, pkgIdOf e.2 = k := by
  rw [AnalyzeCabal_Transitive]
  unfold transitiveDeps
  rw [(foldl_transitive _ [] (by simp [mapKeys])).2.1]
  simp [mapKeys, mapRange, mem_shuffle]

/-- The resolved identities of the direct imports are the identities of the claimed pool
packages. -/
theorem mem_direct (ord : IterOrder) (plan : CabalPlan) (i : pkg.Import) :
    i ∈ (AnalyzeCabal ord plan).Direct ↔
      ∃ e ∈ buildPool plan, isOurProject e.2 = false ∧
        referenced (buildPool plan) e.1 = true ∧ importOf e.2 = i := by
  rw [(direct_perm ord plan).mem_iff]
  simp only [List.mem_map, List.mem_filter, Bool.and_eq_true, Bool.not_eq_true', and_assoc]

end haskell

/-! ## Claims about the plan-based extractor -/

namespace haskell

open gomap

theorem AnalyzeCabal_examplePlan (ord : IterOrder) : AnalyzeCabal ord examplePlan = exampleDeps := by
  have hpool : buildPool examplePlan =
      [(appPackage.Id, appPackage), ("p1", libA), ("p2", libB), ("p3", libC)] := by decide
  have hours : ourProjectsOf ord examplePlan = [appPackage] := by
    unfold ourProjectsOf
    rw [findOurProjects_eq _ _ (nodup_buildPool _)]
    have hp : ((mapRange ord.pool (buildPool examplePlan)).filter
        (fun e => isOurProject e.2)).Perm [(appPackage.Id, appPackage)] := by
      have h := (shuffle_perm ord.pool (buildPool examplePlan)).filter (fun e => isOurProject e.2)
      have h2 : (buildPool examplePlan).filter (fun e => isOurProject e.2)
          = [(appPackage.Id, appPackage)] := by decide
      rw [h2] at h
      exact h
    rw [List.perm_singleton.1 hp]
    rfl
  have hrest : poolAfterPartition ord examplePlan = [("p1", libA), ("p2", libB), ("p3", libC)] := by
    rw [poolAfterPartition_eq]
    decide
  have hdir : directImports ord [appPackage] [("p1", libA), ("p2", libB), ("p3", libC)]
      = ([("p3", libC)], [importOf libA, importOf libB]) := by
    simp only [directImports, List.foldl_cons, List.foldl_nil, scanProject]
    have : mapRange (ord.components appPackage) appPackage.Components = [] := shuffle_nil _
    rw [this]
    decide
  have hT : (AnalyzeCabal ord examplePlan).Transitive = exampleDeps.Transitive := by
    rw [AnalyzeCabal_Transitive]
    unfold poolAfterImports
    rw [hours, hrest, hdir]
    simp only [transitiveDeps, mapRange, shuffle_singleton]
    decide
  have hD : (AnalyzeCabal ord examplePlan).Direct = exampleDeps.Direct := by
    rw [AnalyzeCabal_Direct, hours, hrest, hdir]
    rfl
  calc AnalyzeCabal ord examplePlan
      = ⟨(AnalyzeCabal ord examplePlan).Direct, (AnalyzeCabal ord examplePlan).Transitive⟩ := rfl
    _ = exampleDeps := by rw [hT, hD]

/-- C1, as stated, fails: in `sharedIdentityPlan` the library unit of `conv-1.2` is claimed
as a direct import and the executable unit of `conv-1.2` stays in the pool, so the identity
`(Haskell, conv, 1.2)` is both in the direct imports and a key of the transitive map. -/
theorem C1_counterexample :
    ¬ (∀ k : pkg.ID,
        k ∈ (AnalyzeCabal storedOrder sharedIdentityPlan).Direct.map (fun i => i.Resolved) →
        k ∉ mapKeys (AnalyzeCabal storedOrder sharedIdentityPlan).Transitive) := by
  intro h
  exact h (pkgIdOf convLib) (by decide) (by decide)

theorem isOurProject_iff (p : Package) :
    isOurProject p = true ↔ (p.«Type» = "configured" ∧ p.Style = "local") := by
  simp [isOurProject]

theorem isOurProject_eq_false_iff (p : Package) :
    isOurProject p = false ↔ ¬ (p.«Type» = "configured" ∧ p.Style = "local") := by
  rw [← isOurProject_iff]
  cases isOurProject p <;> simp

theorem referenced_iff_declared (pool : GoMap String Package) (id : String) :
    referenced pool id = true ↔
      ∃ o ∈ pool, (o.2.«Type» = "configured" ∧ o.2.Style = "local") ∧
        (id ∈ o.2.Depends ∨ ∃ c ∈ o.2.Components, id ∈ c.2.Depends) := by
  rw [referenced_iff]
  simp only [isOurProject_iff]

theorem referenced_eq_false_iff (pool : GoMap String Package) (id : String) :
    referenced pool id = false ↔
      ¬ ∃ o ∈ pool, (o.2.«Type» = "configured" ∧ o.2.Style = "local") ∧
        (id ∈ o.2.Depends ∨ ∃ c ∈ o.2.Components, id ∈ c.2.Depends) := by
  rw [← referenced_iff_declared]
  cases referenced pool id <;> simp

theorem pkgIdOf_eq_iff (p q : Package) :
    pkgIdOf p = pkgIdOf q ↔ (p.Name = q.Name ∧ p.Version = q.Version) := by
  simp [pkgIdOf]

theorem classifiedOurs_iff (ord : IterOrder) (plan : CabalPlan) (e : String × Package)
    (he : e ∈ buildPool plan) :
    classifiedOurs ord plan e ↔ (e.2.«Type» = "configured" ∧ e.2.Style = "local") := by
  have hid : (e.2.Id, e.2) = e := by
    rw [(mem_buildPool plan e he).1]
  unfold classifiedOurs
  rw [mem_ourProjectsOf, hid, isOurProject_iff]
  exact ⟨fun h => h.2, fun h => ⟨he, h⟩⟩

theorem classifiedTransitive_iff (ord : IterOrder) (plan : CabalPlan) (e : String × Package) :
    classifiedTransitive ord plan e ↔
      e ∈ buildPool plan ∧ isOurProject e.2 = false ∧ referenced (buildPool plan) e.1 = false := by
  unfold classifiedTransitive
  rw [poolAfterImports_eq, List.mem_filter]
  simp only [Bool.and_eq_true, Bool.not_eq_true']

theorem classifiedDirect_iff (ord : IterOrder) (plan : CabalPlan) (e : String × Package) :
    classifiedDirect ord plan e ↔
      e ∈ buildPool plan ∧ isOurProject e.2 = false ∧ referenced (buildPool plan) e.1 = true := by
  unfold classifiedDirect
  rw [poolAfterImports_eq, poolAfterPartition_eq, List.mem_filter, List.mem_filter]
  simp only [Bool.and_eq_true, Bool.not_eq_true']
  constructor
  · rintro ⟨⟨he, h1⟩, h2⟩
    refine ⟨he, h1, ?_⟩
    by_contra h3
    exact h2 ⟨he, h1, by simpa using h3⟩
  · rintro ⟨he, h1, h2⟩
    refine ⟨⟨he, h1⟩, ?_⟩
    rintro ⟨_, _, h3⟩
    rw [h2] at h3
    exact Bool.noConfusion h3

theorem nodup_of_nodup_mapKeys {κ ν : Type} (m : GoMap κ ν) (h : (mapKeys m).Nodup) :
    m.Nodup :=
  List.Nodup.of_map Prod.fst h

theorem exactly_one_class (A B C P Q : Prop) (hA : A ↔ P) (hB : B ↔ (¬ P ∧ Q))
    (hC : C ↔ (¬ P ∧ ¬ Q)) :
    (A ∧ ¬ B ∧ ¬ C) ∨ (¬ A ∧ B ∧ ¬ C) ∨ (¬ A ∧ ¬ B ∧ C) := by
  rw [hA, hB, hC]
  by_cases hp : P <;> by_cases hq : Q <;> simp [hp, hq]

theorem disjoint_condition_of_check (pool : GoMap String Package)
    (h : pool.all (fun e₁ => pool.all (fun e₂ =>
      !((!isOurProject e₁.2 && referenced pool e₁.1) &&
        (!isOurProject e₂.2 && !referenced pool e₂.1) &&
        decide (e₁.2.Name = e₂.2.Name ∧ e₁.2.Version = e₂.2.Version)))) = true) :
    ∀ e₁ ∈ pool, ∀ e₂ ∈ pool,
      ¬ (e₁.2.«Type» = "configured" ∧ e₁.2.Style = "local") →
      (∃ o ∈ pool, (o.2.«Type» = "configured" ∧ o.2.Style = "local") ∧
        (e₁.1 ∈ o.2.Depends ∨ ∃ c ∈ o.2.Components, e₁.1 ∈ c.2.Depends)) →
      ¬ (e₂.2.«Type» = "configured" ∧ e₂.2.Style = "local") →
      ¬ (∃ o ∈ pool, (o.2.«Type» = "configured" ∧ o.2.Style = "local") ∧
        (e₂.1 ∈ o.2.Depends ∨ ∃ c ∈ o.2.Components, e₂.1 ∈ c.2.Depends)) →
      ¬ (e₁.2.Name = e₂.2.Name ∧ e₁.2.Version = e₂.2.Version) := by
  intro e₁ he₁ e₂ he₂ ho₁ hr₁ ho₂ hr₂ hsame
  have h1 := List.all_eq_true.1 h e₁ he₁
  have h2 := List.all_eq_true.1 h1 e₂ he₂
  have a1 := (isOurProject_eq_false_iff e₁.2).2 ho₁
  have a2 := (referenced_iff_declared pool e₁.1).2 hr₁
  have a3 := (isOurProject_eq_false_iff e₂.2).2 ho₂
  have a4 := (referenced_eq_false_iff pool e₂.1).2 hr₂
  simp [a1, a2, a3, a4, hsame] at h2

/-- C1, amended: the identities in the direct-import sequence and the keys of the
transitive map are disjoint exactly when no pool package claimed as a direct import (not
ours, declared as a dependency by one of ours) has the name and version of a package left
in the pool (not ours, not declared as a dependency by any of ours). -/
theorem C1_disjoint_iff (ord : IterOrder) (plan : CabalPlan) :
    (∀ k : pkg.ID, k ∈ (AnalyzeCabal ord plan).Direct.map (fun i => i.Resolved) →
      k ∉ mapKeys (AnalyzeCabal ord plan).Transitive) ↔
    (∀ e₁ ∈ buildPool plan, ∀ e₂ ∈ buildPool plan,
      ¬ (e₁.2.«Type» = "configured" ∧ e₁.2.Style = "local") →
      (∃ o ∈ buildPool plan, (o.2.«Type» = "configured" ∧ o.2.Style = "local") ∧
        (e₁.1 ∈ o.2.Depends ∨ ∃ c ∈ o.2.Components, e₁.1 ∈ c.2.Depends)) →
      ¬ (e₂.2.«Type» = "configured" ∧ e₂.2.Style = "local") →
      ¬ (∃ o ∈ buildPool plan, (o.2.«Type» = "configured" ∧ o.2.Style = "local") ∧
        (e₂.1 ∈ o.2.Depends ∨ ∃ c ∈ o.2.Components, e₂.1 ∈ c.2.Depends)) →
      ¬ (e₁.2.Name = e₂.2.Name ∧ e₁.2.Version = e₂.2.Version)) := by
  constructor
  · intro hdis e₁ he₁ e₂ he₂ ho₁ hr₁ ho₂ hr₂ hsame
    have ho₁' := (isOurProject_eq_false_iff e₁.2).2 ho₁
    have ho₂' := (isOurProject_eq_false_iff e₂.2).2 ho₂
    have hr₁' := (referenced_iff_declared (buildPool plan) e₁.1).2 hr₁
    have hr₂' := (referenced_eq_false_iff (buildPool plan) e₂.1).2 hr₂
    apply hdis (pkgIdOf e₁.2)
    · exact List.mem_map.2 ⟨importOf e₁.2,
        (mem_direct ord plan _).2 ⟨e₁, he₁, ho₁', hr₁', rfl⟩, rfl⟩
    · refine (mem_keys_transitive ord plan _).2 ⟨e₂, ?_, ((pkgIdOf_eq_iff e₁.2 e₂.2).2 hsame).symm⟩
      exact (classifiedTransitive_iff ord plan e₂).2 ⟨he₂, ho₂', hr₂'⟩
  · intro hcond k hk hk'
    obtain ⟨i, hi, rfl⟩ := List.mem_map.1 hk
    obtain ⟨e₁, he₁, ho₁, hr₁, rfl⟩ := (mem_direct ord plan i).1 hi
    obtain ⟨e₂, he₂, hid⟩ := (mem_keys_transitive ord plan _).1 hk'
    obtain ⟨he₂, ho₂, hr₂⟩ := (classifiedTransitive_iff ord plan e₂).1 he₂
    exact hcond e₁ he₁ e₂ he₂ ((isOurProject_eq_false_iff _).1 ho₁)
      ((referenced_iff_declared _ _).1 hr₁) ((isOurProject_eq_false_iff _).1 ho₂)
      ((referenced_eq_false_iff _ _).1 hr₂) ((pkgIdOf_eq_iff e₁.2 e₂.2).1 hid.symm)

/-- C1, amended, at `mixedPlan`: the two units of `conv-1.2` share a name and a version and
both stay in the pool, the condition holds, and `lib-a@1.0.0` is a direct import and not a
key of the transitive map. -/
theorem C1_disjoint_witness :
    (∀ e₁ ∈ buildPool mixedPlan, ∀ e₂ ∈ buildPool mixedPlan,
      ¬ (e₁.2.«Type» = "configured" ∧ e₁.2.Style = "local") →
      (∃ o ∈ buildPool mixedPlan, (o.2.«Type» = "configured" ∧ o.2.Style = "local") ∧
        (e₁.1 ∈ o.2.Depends ∨ ∃ c ∈ o.2.Components, e₁.1 ∈ c.2.Depends)) →
      ¬ (e₂.2.«Type» = "configured" ∧ e₂.2.Style = "local") →
      ¬ (∃ o ∈ buildPool mixedPlan, (o.2.«Type» = "configured" ∧ o.2.Style = "local") ∧
        (e₂.1 ∈ o.2.Depends ∨ ∃ c ∈ o.2.Components, e₂.1 ∈ c.2.Depends)) →
      ¬ (e₁.2.Name = e₂.2.Name ∧ e₁.2.Version = e₂.2.Version)) ∧
    ({ «Type» := pkg.«Type».Haskell, Name := "lib-a", Revision := "1.0.0" } : pkg.ID) ∈
      (AnalyzeCabal storedOrder mixedPlan).Direct.map (fun i => i.Resolved) ∧
    ({ «Type» := pkg.«Type».Haskell, Name := "lib-a", Revision := "1.0.0" } : pkg.ID) ∉
      mapKeys (AnalyzeCabal storedOrder mixedPlan).Transitive ∧
    ({ «Type» := pkg.«Type».Haskell, Name := "conv", Revision := "1.2" } : pkg.ID) ∈
      mapKeys (AnalyzeCabal storedOrder mixedPlan).Transitive :=
  ⟨disjoint_condition_of_check _ (by decide), by decide,
    (C1_disjoint_iff storedOrder mixedPlan).2 (disjoint_condition_of_check _ (by decide)) _
      (by decide),
    by decide⟩

/-- C2: every entry of the pool falls in exactly one of the three classes (ours,
direct import, transitive-only), and the class is decided by the entry: ours when its kind
is "configured" and its style "local"; direct import when it is not ours and its
plan-local id is declared as a dependency by one of ours; transitive-only otherwise. The
output is made of the two last classes and of nothing else: the direct-import sequence
has one entry (Haskell, name, version) for each entry classified as direct import, the
keys of the transitive map are the identities (Haskell, name, version) of the entries
classified as transitive-only; so the identity of every pool package that is not ours is
in the output. -/
theorem C2_no_loss (ord : IterOrder) (plan : CabalPlan) :
    (∀ e ∈ buildPool plan,
      ((classifiedOurs ord plan e ∧ ¬ classifiedDirect ord plan e ∧
          ¬ classifiedTransitive ord plan e) ∨
        (¬ classifiedOurs ord plan e ∧ classifiedDirect ord plan e ∧
          ¬ classifiedTransitive ord plan e) ∨
        (¬ classifiedOurs ord plan e ∧ ¬ classifiedDirect ord plan e ∧
          classifiedTransitive ord plan e)) ∧
      (classifiedOurs ord plan e ↔ (e.2.«Type» = "configured" ∧ e.2.Style = "local")) ∧
      (classifiedDirect ord plan e ↔
        (¬ (e.2.«Type» = "configured" ∧ e.2.Style = "local") ∧
          ∃ o ∈ buildPool plan, (o.2.«Type» = "configured" ∧ o.2.Style = "local") ∧
            (e.1 ∈ o.2.Depends ∨ ∃ c ∈ o.2.Components, e.1 ∈ c.2.Depends))) ∧
      (classifiedTransitive ord plan e ↔
        (¬ (e.2.«Type» = "configured" ∧ e.2.Style = "local") ∧
          ¬ ∃ o ∈ buildPool plan, (o.2.«Type» = "configured" ∧ o.2.Style = "local") ∧
            (e.1 ∈ o.2.Depends ∨ ∃ c ∈ o.2.Components, e.1 ∈ c.2.Depends))) ∧
      (¬ (e.2.«Type» = "configured" ∧ e.2.Style = "local") →
        (({ Target := "",
            Resolved := { «Type» := pkg.«Type».Haskell, Name := e.2.Name,
                          Revision := e.2.Version } } : pkg.Import) ∈
            (AnalyzeCabal ord plan).Direct ∨
          ({ «Type» := pkg.«Type».Haskell, Name := e.2.Name, Revision := e.2.Version } : pkg.ID) ∈
            mapKeys (AnalyzeCabal ord plan).Transitive))) ∧
    (∀ i : pkg.Import, i ∈ (AnalyzeCabal ord plan).Direct ↔
      ∃ e ∈ buildPool plan, classifiedDirect ord plan e ∧
        i = { Target := "",
              Resolved := { «Type» := pkg.«Type».Haskell, Name := e.2.Name,
                            Revision := e.2.Version } }) ∧
    (∀ k : pkg.ID, k ∈ mapKeys (AnalyzeCabal ord plan).Transitive ↔
      ∃ e ∈ buildPool plan, classifiedTransitive ord plan e ∧
        k = { «Type» := pkg.«Type».Haskell, Name := e.2.Name, Revision := e.2.Version }) ∧
    (∃ claimed : List (String × Package),
      claimed.Nodup ∧
      (∀ e, e ∈ claimed ↔ (e ∈ buildPool plan ∧ classifiedDirect ord plan e)) ∧
      (AnalyzeCabal ord plan).Direct.Perm
        (claimed.map (fun e =>
          { Target := "",
            Resolved := { «Type» := pkg.«Type».Haskell, Name := e.2.Name,
                          Revision := e.2.Version } }))) := by
  have hDmem : ∀ i : pkg.Import, i ∈ (AnalyzeCabal ord plan).Direct ↔
      ∃ e ∈ buildPool plan, classifiedDirect ord plan e ∧
        i = { Target := "",
              Resolved := { «Type» := pkg.«Type».Haskell, Name := e.2.Name,
                            Revision := e.2.Version } } := by
    intro i
    rw [mem_direct]
    constructor
    · rintro ⟨e, he, h1, h2, rfl⟩
      exact ⟨e, he, (classifiedDirect_iff ord plan e).2 ⟨he, h1, h2⟩, rfl⟩
    · rintro ⟨e, he, hc, rfl⟩
      obtain ⟨_, h1, h2⟩ := (classifiedDirect_iff ord plan e).1 hc
      exact ⟨e, he, h1, h2, rfl⟩
  have hTmem : ∀ k : pkg.ID, k ∈ mapKeys (AnalyzeCabal ord plan).Transitive ↔
      ∃ e ∈ buildPool plan, classifiedTransitive ord plan e ∧
        k = { «Type» := pkg.«Type».Haskell, Name := e.2.Name, Revision := e.2.Version } := by
    intro k
    rw [mem_keys_transitive]
    constructor
    · rintro ⟨e, he, rfl⟩
      exact ⟨e, ((classifiedTransitive_iff ord plan e).1 he).1, he, rfl⟩
    · rintro ⟨e, _, hc, rfl⟩
      exact ⟨e, hc, rfl⟩
  refine ⟨?_, hDmem, hTmem, ?_⟩
  · intro e he
    have hO := classifiedOurs_iff ord plan e he
    have hD : classifiedDirect ord plan e ↔
        (¬ (e.2.«Type» = "configured" ∧ e.2.Style = "local") ∧
          ∃ o ∈ buildPool plan, (o.2.«Type» = "configured" ∧ o.2.Style = "local") ∧
            (e.1 ∈ o.2.Depends ∨ ∃ c ∈ o.2.Components, e.1 ∈ c.2.Depends)) := by
      rw [classifiedDirect_iff, isOurProject_eq_false_iff, referenced_iff_declared]
      exact ⟨fun h => h.2, fun h => ⟨he, h⟩⟩
    have hT : classifiedTransitive ord plan e ↔
        (¬ (e.2.«Type» = "configured" ∧ e.2.Style = "local") ∧
          ¬ ∃ o ∈ buildPool plan, (o.2.«Type» = "configured" ∧ o.2.Style = "local") ∧
            (e.1 ∈ o.2.Depends ∨ ∃ c ∈ o.2.Components, e.1 ∈ c.2.Depends)) := by
      rw [classifiedTransitive_iff, isOurProject_eq_false_iff, referenced_eq_false_iff]
      exact ⟨fun h => h.2, fun h => ⟨he, h⟩⟩
    refine ⟨?_, hO, hD, hT, ?_⟩
    · exact exactly_one_class _ _ _ _ _ hO hD hT
    · intro hno
      by_cases h2 : (∃ o ∈ buildPool plan, (o.2.«Type» = "configured" ∧ o.2.Style = "local") ∧
            (e.1 ∈ o.2.Depends ∨ ∃ c ∈ o.2.Components, e.1 ∈ c.2.Depends))
      · exact Or.inl ((hDmem _).2 ⟨e, he, hD.2 ⟨hno, h2⟩, rfl⟩)
      · exact Or.inr ((hTmem _).2 ⟨e, he, hT.2 ⟨hno, h2⟩, rfl⟩)
  · refine ⟨(buildPool plan).filter
      (fun e => !isOurProject e.2 && referenced (buildPool plan) e.1), ?_, ?_, ?_⟩
    · exact (nodup_of_nodup_mapKeys _ (nodup_buildPool plan)).filter _
    · intro e
      rw [List.mem_filter, classifiedDirect_iff]
      simp only [Bool.and_eq_true, Bool.not_eq_true']
      constructor
      · rintro ⟨he, h1, h2⟩
        exact ⟨he, he, h1, h2⟩
      · rintro ⟨he, _, h1, h2⟩
        exact ⟨he, h1, h2⟩
    · exact direct_perm ord plan

/-- C2 at the plan of the end-to-end example: `app` is classified as ours, `p1` as
direct import, `p3` as transitive-only, and the graph has the entries of `p1` and `p3`. -/
theorem C2_no_loss_witness :
    classifiedOurs storedOrder examplePlan ("app-0.1.0-inplace", appPackage) ∧
    classifiedDirect storedOrder examplePlan ("p1", libA) ∧
    classifiedTransitive storedOrder examplePlan ("p3", libC) ∧
    ({ Target := "",
       Resolved := { «Type» := pkg.«Type».Haskell, Name := "lib-a", Revision := "1.0.0" } } :
        pkg.Import) ∈ (AnalyzeCabal storedOrder examplePlan).Direct ∧
    ({ «Type» := pkg.«Type».Haskell, Name := "lib-c", Revision := "0.1.0" } : pkg.ID) ∈
      mapKeys (AnalyzeCabal storedOrder examplePlan).Transitive :=
  ⟨((C2_no_loss storedOrder examplePlan).1 ("app-0.1.0-inplace", appPackage)
      (by decide)).2.1.2 (by decide),
    ((C2_no_loss storedOrder examplePlan).1 ("p1", libA) (by decide)).2.2.1.2 (by decide),
    ((C2_no_loss storedOrder examplePlan).1 ("p3", libC) (by decide)).2.2.2.1.2 (by decide),
    by decide, by decide⟩

/-- C4: the keys of the pool are distinct, and the direct-import sequence is, up to order,
the list with one import for each pool entry that is not ours and whose plan-local id is
declared as a dependency (top-level or in a component) by one of ours; whatever the
iteration orders, the plan of the end-to-end example yields the direct imports
`lib-a@1.0.0`, `lib-b@2.0.0` and the transitive map with the one key `lib-c@0.1.0`. -/
theorem C4_direct_imports (ord : IterOrder) (plan : CabalPlan) :
    (mapKeys (buildPool plan)).Nodup ∧
    (AnalyzeCabal ord plan).Direct.Perm
      (((buildPool plan).filter
        (fun e => !isOurProject e.2 && referenced (buildPool plan) e.1)).map
          (fun e => importOf e.2)) ∧
    (∀ id, referenced (buildPool plan) id = true ↔
      ∃ e ∈ buildPool plan, isOurProject e.2 = true ∧
        (id ∈ e.2.Depends ∨ ∃ c ∈ e.2.Components, id ∈ c.2.Depends)) ∧
    AnalyzeCabal ord examplePlan =
      { Direct :=
          [{ Target := "", Resolved := { «Type» := pkg.«Type».Haskell, Name := "lib-a", Revision := "1.0.0" } },
           { Target := "", Resolved := { «Type» := pkg.«Type».Haskell, Name := "lib-b", Revision := "2.0.0" } }],
        Transitive :=
          [({ «Type» := pkg.«Type».Haskell, Name := "lib-c", Revision := "0.1.0" },
            { ID := { «Type» := pkg.«Type».Haskell, Name := "lib-c", Revision := "0.1.0" },
              Imports := [] })] } :=
  ⟨nodup_buildPool plan, direct_perm ord plan, referenced_iff (buildPool plan),
    AnalyzeCabal_examplePlan ord⟩

/-- C10: the keys of the transitive map are exactly the identities (Haskell, name,
version) of the packages left in the pool after the our-project packages and the packages
claimed as direct imports were removed, that is of the pool packages that are not ours and
whose plan-local id no package of ours declares as a dependency; the keys are distinct, so
packages with the same name and version give one key, and there are at most as many keys
as remaining packages (in `twoUnitsPlan` two packages remain and give one key). -/
theorem C10_transitive_keys (ord : IterOrder) (plan : CabalPlan) :
    (∀ k : pkg.ID, k ∈ mapKeys (AnalyzeCabal ord plan).Transitive ↔
      ∃ e ∈ poolAfterImports ord plan,
        k = { «Type» := pkg.«Type».Haskell, Name := e.2.Name, Revision := e.2.Version }) ∧
    poolAfterImports ord plan =
      (buildPool plan).filter
        (fun e => !isOurProject e.2 && !referenced (buildPool plan) e.1) ∧
    (∀ e, e ∈ poolAfterImports ord plan ↔
      (e ∈ buildPool plan ∧ ¬ (e.2.«Type» = "configured" ∧ e.2.Style = "local") ∧
        ¬ ∃ o ∈ buildPool plan, (o.2.«Type» = "configured" ∧ o.2.Style = "local") ∧
          (e.1 ∈ o.2.Depends ∨ ∃ c ∈ o.2.Components, e.1 ∈ c.2.Depends))) ∧
    (mapKeys (AnalyzeCabal ord plan).Transitive).Nodup ∧
    (mapKeys (AnalyzeCabal ord plan).Transitive).length ≤ (poolAfterImports ord plan).length ∧
    ((poolAfterImports storedOrder twoUnitsPlan).length = 2 ∧
      mapKeys (AnalyzeCabal storedOrder twoUnitsPlan).Transitive =
        [{ «Type» := pkg.«Type».Haskell, Name := "conv", Revision := "1.2" }]) := by
  refine ⟨?_, poolAfterImports_eq ord plan, ?_, ?_, ?_, by decide⟩
  · intro k
    rw [mem_keys_transitive]
    constructor
    · rintro ⟨e, he, rfl⟩
      exact ⟨e, he, rfl⟩
    · rintro ⟨e, he, rfl⟩
      exact ⟨e, he, rfl⟩
  · intro e
    have := classifiedTransitive_iff ord plan e
    unfold classifiedTransitive at this
    rw [this, isOurProject_eq_false_iff, referenced_eq_false_iff]
  · rw [AnalyzeCabal_Transitive]
    exact (foldl_transitive _ [] (by simp [mapKeys])).1
  · rw [AnalyzeCabal_Transitive]
    have := (foldl_transitive (mapRange ord.transitive (poolAfterImports ord plan)) []
      (by simp [mapKeys])).2.2
    simp only [mapKeys, List.length_map, transitiveDeps]
    have hl : (mapRange ord.transitive (poolAfterImports ord plan)).length
        = (poolAfterImports ord plan).length := (shuffle_perm _ _).length_eq
    simp only [List.length_nil, Nat.zero_add, hl] at this
    exact this

end haskell

/-! ## The listing-based extractor -/

namespace haskell

open gomap

theorem splitChars_eq (sep : Char) (l : List Char) :
    splitChars sep l =
      l.takeWhile (fun c => decide (c ≠ sep)) ::
        (match l.dropWhile (fun c => decide (c ≠ sep)) with
          | [] => []
          | _ :: rest => splitChars sep rest) := by
  induction l with
  | nil => simp [splitChars]
  | cons c cs ih =>
    by_cases h : c = sep
    · simp [splitChars, h]
    · simp only [splitChars, h, if_false]
      rw [ih]
      simp [h]

theorem length_splitChars_lt_two (sep : Char) (l : List Char) :
    (splitChars sep l).length < 2 ↔ sep ∉ l := by
  rw [splitChars_eq]
  constructor
  · intro h hmem
    cases hd : l.dropWhile (fun c => decide (c ≠ sep)) with
    | nil =>
      have := List.dropWhile_eq_nil_iff.1 hd sep hmem
      simp at this
    | cons c rest =>
      rw [hd] at h
      simp only [List.length_cons] at h
      have : 0 < (splitChars sep rest).length := by
        rw [splitChars_eq]; simp
      omega
  · intro h
    have : l.dropWhile (fun c => decide (c ≠ sep)) = [] := by
      apply List.dropWhile_eq_nil_iff.2
      intro x hx
      simp only [decide_eq_true_eq]
      rintro rfl
      exact h hx
    rw [this]
    simp

theorem splitChars_head (sep : Char) (l : List Char) :
    (splitChars sep l)[0]? = some (l.takeWhile (fun c => decide (c ≠ sep))) := by
  rw [splitChars_eq]; simp

theorem splitChars_second (sep : Char) (l : List Char) (h : sep ∈ l) :
    (splitChars sep l)[1]? =
      some (((l.dropWhile (fun c => decide (c ≠ sep))).drop 1).takeWhile
        (fun c => decide (c ≠ sep))) := by
  rw [splitChars_eq]
  cases hd : l.dropWhile (fun c => decide (c ≠ sep)) with
  | nil =>
    have := List.dropWhile_eq_nil_iff.1 hd sep h
    simp at this
  | cons c rest =>
    simp only [List.getElem?_cons_succ, List.drop_succ_cons, List.drop_zero]
    exact splitChars_head sep rest

/-- The test of line 245 skips exactly the lines without a space. -/
theorem length_Split_lt_two (line : String) :
    (Split line ' ').length < 2 ↔ ' ' ∉ line.data := by
  simp only [Split, List.length_map]
  exact length_splitChars_lt_two ' ' line.data

theorem validLine_iff (line : String) : validLine line = true ↔ ' ' ∈ line.data := by
  have := length_Split_lt_two line
  simp only [validLine, decide_eq_true_eq]
  constructor
  · intro h
    by_contra hc
    have := this.2 hc
    omega
  · intro h
    by_contra hc
    exact this.1 (by omega) h

/-- On a valid line the two index expressions of lines 249-250 are in range and give the
texts before the first space and between the first and the second space. -/
theorem Split_fields (line : String) (h : validLine line = true) :
    (Split line ' ')[0]? = some (lineName line) ∧
    (Split line ' ')[1]? = some (lineVersion line) := by
  have hs := (validLine_iff line).1 h
  constructor
  · simp only [Split, List.getElem?_map, splitChars_head, Option.map_some', lineName]
  · simp only [Split, List.getElem?_map, splitChars_second ' ' line.data hs, Option.map_some',
      lineVersion]

theorem mem_firstOccFrom {α : Type} [DecidableEq α] (l seen : List α) (a : α) :
    a ∈ firstOccFrom seen l ↔ a ∈ l ∧ a ∉ seen := by
  induction l generalizing seen with
  | nil => simp [firstOccFrom]
  | cons x xs ih =>
    simp only [firstOccFrom]
    by_cases hx : x ∈ seen
    · simp only [hx, if_true, ih, List.mem_cons]
      constructor
      · rintro ⟨h1, h2⟩
        exact ⟨Or.inr h1, h2⟩
      · rintro ⟨h1 | h1, h2⟩
        · subst h1; exact absurd hx h2
        · exact ⟨h1, h2⟩
    · simp only [hx, if_false, List.mem_cons, ih, List.mem_append, List.mem_singleton, not_or,
        List.not_mem_nil, or_false]
      constructor
      · rintro (h | ⟨h1, h2, _⟩)
        · subst h; exact ⟨Or.inl rfl, hx⟩
        · exact ⟨Or.inr h1, h2⟩
      · rintro ⟨h1 | h1, h2⟩
        · exact Or.inl h1
        · by_cases hax : a = x
          · exact Or.inl hax
          · exact Or.inr ⟨h1, h2, hax⟩

theorem nodup_firstOccFrom {α : Type} [DecidableEq α] (l seen : List α) :
    (firstOccFrom seen l).Nodup := by
  induction l generalizing seen with
  | nil => simp [firstOccFrom]
  | cons x xs ih =>
    simp only [firstOccFrom]
    by_cases hx : x ∈ seen
    · simp only [hx, if_true]; exact ih seen
    · simp only [hx, if_false, List.nodup_cons]
      refine ⟨?_, ih _⟩
      rw [mem_firstOccFrom]
      simp

theorem sublist_firstOccFrom {α : Type} [DecidableEq α] (l seen : List α) :
    (firstOccFrom seen l).Sublist l := by
  induction l generalizing seen with
  | nil => simp [firstOccFrom]
  | cons x xs ih =>
    simp only [firstOccFrom]
    by_cases hx : x ∈ seen
    · simp only [hx, if_true]; exact (ih seen).cons x
    · simp only [hx, if_false]; exact (ih _).cons₂ x

theorem firstOccFrom_eq_nil {α : Type} [DecidableEq α] (l seen : List α)
    (h : ∀ a ∈ l, a ∈ seen) : firstOccFrom seen l = [] := by
  apply List.eq_nil_iff_forall_not_mem.2
  intro a ha
  rw [mem_firstOccFrom] at ha
  exact ha.2 (h a ha.1)

/-- The loop of `FoldStackDeps` never panics; it invokes the consumer once for each new
line, in order, and adds the new lines to `seen`. -/
theorem foldLines_eq {σ : Type} (consume : σ → String → String → σ) (lines : List String)
    (seen : GoMap String Bool) (acc : σ) :
    ∃ seen', foldLines consume lines (seen, acc) =
        some (seen', (firstOccFrom (mapKeys seen) (lines.filter validLine)).foldl
          (consumeLine consume) acc) ∧
      mapKeys seen' = mapKeys seen ++ firstOccFrom (mapKeys seen) (lines.filter validLine) := by
  induction lines generalizing seen acc with
  | nil => exact ⟨seen, by simp [foldLines, firstOccFrom]⟩
  | cons line rest ih =>
    by_cases hv : validLine line = true
    · have hlen : ¬ (Split line ' ').length < 2 := by
        have := hv
        simp only [validLine, decide_eq_true_eq] at this
        omega
      obtain ⟨h0, h1⟩ := Split_fields line hv
      rw [List.filter_cons_of_pos hv]
      simp only [foldLines, hlen, if_false, h0, h1, firstOccFrom]
      cases hget : mapGet seen line with
      | some b =>
        have hmem : line ∈ mapKeys seen := by
          by_contra hc
          rw [(mapGet_eq_none seen line).2 hc] at hget
          exact Option.noConfusion hget
        simp only [hmem, if_true]
        exact ih seen acc
      | none =>
        have hmem : line ∉ mapKeys seen := (mapGet_eq_none seen line).1 hget
        simp only [hmem, if_false, List.foldl_cons]
        obtain ⟨seen', h1, h2⟩ := ih (mapSet seen line true) (consume acc (lineName line) (lineVersion line))
        have hk : mapKeys (mapSet seen line true) = mapKeys seen ++ [line] := by
          rw [mapKeys_mapSet]; simp [hmem]
        rw [hk] at h1 h2
        refine ⟨seen', h1, ?_⟩
        rw [h2]; simp
    · have hlen : (Split line ' ').length < 2 := by
        have := hv
        simp only [validLine, decide_eq_true_eq] at this
        omega
      rw [List.filter_cons_of_neg hv]
      simp only [foldLines, hlen, if_true]
      exact ih seen acc

/-- Function `FoldStackDeps` returns; the consumer is invoked once for each line of `newLines`, in
order, and these lines are added to `seen`. -/
theorem FoldStackDeps_eq {σ : Type} (seen : GoMap String Bool) (depsOutput : String)
    (consume : σ → String → String → σ) (acc : σ) :
    ∃ seen', FoldStackDeps seen depsOutput consume acc =
        some (seen', (newLines (mapKeys seen) depsOutput).foldl (consumeLine consume) acc) ∧
      mapKeys seen' = mapKeys seen ++ newLines (mapKeys seen) depsOutput :=
  foldLines_eq consume (Split depsOutput '\n') seen acc

theorem mem_newLines (seenKeys : List String) (depsOutput line : String) :
    line ∈ newLines seenKeys depsOutput ↔
      (line ∈ Split depsOutput '\n' ∧ validLine line = true) ∧ line ∉ seenKeys := by
  rw [newLines, mem_firstOccFrom, List.mem_filter]

theorem foldl_consumeImport (lines : List String) (imports : List pkg.Import) :
    lines.foldl (consumeLine consumeImport) imports =
      (imports ++ lines.map (fun l => { Resolved := lineId l })) := by
  induction lines generalizing imports with
  | nil => simp
  | cons l ls ih =>
    simp only [List.foldl_cons, ih, List.map_cons]
    simp [consumeLine, consumeImport, lineId]

theorem foldl_consumeTransitive (lines : List String) (t : GoMap pkg.ID pkg.Package) (k : pkg.ID) :
    k ∈ mapKeys (lines.foldl (consumeLine consumeTransitive) t) ↔
      k ∈ mapKeys t ∨ ∃ l ∈ lines, lineId l = k := by
  induction lines generalizing t with
  | nil => simp
  | cons l ls ih =>
    simp only [List.foldl_cons, ih, List.mem_cons, exists_eq_or_imp]
    simp only [consumeLine, consumeTransitive, mem_mapKeys_mapSet, lineId]
    constructor
    · rintro ((h | h) | h)
      · exact Or.inr (Or.inl h.symm)
      · exact Or.inl h
      · exact Or.inr (Or.inr h)
    · rintro (h | h | h)
      · exact Or.inl (Or.inr h)
      · exact Or.inl (Or.inl h.symm)
      · exact Or.inr h

/-- The graph returned by `AnalyzeStackFrom`: the direct imports are read from the new
lines of the shallow listing, the transitive map is built from the new lines of the full
listing, where the valid lines of the shallow listing count as seen. -/
theorem AnalyzeStackFrom_eq (localDepsStdout allDepsStdout : String) :
    AnalyzeStackFrom localDepsStdout allDepsStdout =
      some { Direct := (newLines [] localDepsStdout).map (fun l => { Resolved := lineId l }),
             Transitive := (newLines (newLines [] localDepsStdout) allDepsStdout).foldl
               (consumeLine consumeTransitive) [] } := by
  obtain ⟨seen, h1, h2⟩ := FoldStackDeps_eq [] localDepsStdout consumeImport []
  obtain ⟨seen', h3, _⟩ := FoldStackDeps_eq seen allDepsStdout consumeTransitive []
  simp only [mapKeys, List.map_nil, List.nil_append] at h1 h2
  simp only [AnalyzeStackFrom, h1, h3]
  rw [foldl_consumeImport]
  simp only [mapKeys] at h2 ⊢
  rw [h2]
  simp

end haskell

/-! ## Claims about the listing-based extractor -/

namespace haskell

open gomap

theorem foldLines_of_seen {σ : Type} (consume : σ → String → String → σ) (lines : List String)
    (seen : GoMap String Bool) (acc : σ)
    (h : ∀ l ∈ lines, validLine l = true → l ∈ mapKeys seen) :
    foldLines consume lines (seen, acc) = some (seen, acc) := by
  induction lines with
  | nil => rfl
  | cons line rest ih =>
    have ih := ih (fun l hl => h l (List.mem_cons_of_mem _ hl))
    by_cases hv : validLine line = true
    · have hlen : ¬ (Split line ' ').length < 2 := by
        have := hv
        simp only [validLine, decide_eq_true_eq] at this
        omega
      obtain ⟨h0, h1⟩ := Split_fields line hv
      have hmem := h line (List.mem_cons_self _ _) hv
      cases hget : mapGet seen line with
      | none => exact absurd hmem ((mapGet_eq_none seen line).1 hget)
      | some b => simp only [foldLines, hlen, if_false, h0, h1, hget, ih]
    · have hlen : (Split line ' ').length < 2 := by
        have := hv
        simp only [validLine, decide_eq_true_eq] at this
        omega
      simp only [foldLines, hlen, if_true, ih]

/-- Running `FoldStackDeps` on a listing whose valid lines are all in `seen` changes nothing. -/
theorem FoldStackDeps_of_seen {σ : Type} (seen : GoMap String Bool) (depsOutput : String)
    (consume : σ → String → String → σ) (acc : σ)
    (h : ∀ l ∈ Split depsOutput '\n', validLine l = true → l ∈ mapKeys seen) :
    FoldStackDeps seen depsOutput consume acc = some (seen, acc) :=
  foldLines_of_seen consume _ seen acc h

theorem mem_keys_after {σ : Type} (seen seen' : GoMap String Bool) (depsOutput : String)
    (consume : σ → String → String → σ) (acc acc' : σ)
    (h : FoldStackDeps seen depsOutput consume acc = some (seen', acc')) (l : String) :
    l ∈ mapKeys seen' ↔ l ∈ mapKeys seen ∨ (l ∈ Split depsOutput '\n' ∧ validLine l = true) := by
  obtain ⟨s, h1, h2⟩ := FoldStackDeps_eq seen depsOutput consume acc
  rw [h1] at h
  have hs : s = seen' := congrArg Prod.fst (Option.some.inj h)
  rw [← hs, h2, List.mem_append, mem_newLines]
  constructor
  · rintro (h | h)
    · exact Or.inl h
    · exact Or.inr h.1
  · rintro (h | h)
    · exact Or.inl h
    · by_cases hm : l ∈ mapKeys seen
      · exact Or.inl hm
      · exact Or.inr ⟨h, hm⟩

/-- C5: the transitive map is built by invoking the consumer for the new lines of the full
listing only, none of which is a line of the shallow listing; its keys are exactly the
identities of the valid lines of the full listing whose text is not a line of the shallow
listing; the example listings give the direct imports `pkg-a@1.0.0`, `pkg-b@2.0.0` and the
transitive map with the one key `pkg-c@3.0.0`. -/
theorem C5_shared_lines_suppressed (localDepsStdout allDepsStdout : String) :
    ∃ deps, AnalyzeStackFrom localDepsStdout allDepsStdout = some deps ∧
      deps.Transitive =
        (newLines (newLines [] localDepsStdout) allDepsStdout).foldl
          (consumeLine consumeTransitive) [] ∧
      (∀ l ∈ newLines (newLines [] localDepsStdout) allDepsStdout,
        l ∉ Split localDepsStdout '\n') ∧
      (∀ k : pkg.ID, k ∈ mapKeys deps.Transitive ↔
        ∃ l ∈ Split allDepsStdout '\n', validLine l = true ∧
          l ∉ Split localDepsStdout '\n' ∧ lineId l = k) ∧
      AnalyzeStackFrom "pkg-a 1.0.0\npkg-b 2.0.0" "pkg-a 1.0.0\npkg-b 2.0.0\npkg-c 3.0.0" =
        some
          { Direct :=
              [{ Target := "", Resolved := { «Type» := pkg.«Type».Haskell, Name := "pkg-a", Revision := "1.0.0" } },
               { Target := "", Resolved := { «Type» := pkg.«Type».Haskell, Name := "pkg-b", Revision := "2.0.0" } }],
            Transitive :=
              [({ «Type» := pkg.«Type».Haskell, Name := "pkg-c", Revision := "3.0.0" },
                { ID := { «Type» := pkg.«Type».Haskell, Name := "pkg-c", Revision := "3.0.0" },
                  Imports := [] })] } := by
  have hnew : ∀ l, l ∈ newLines (newLines [] localDepsStdout) allDepsStdout ↔
      (l ∈ Split allDepsStdout '\n' ∧ validLine l = true) ∧ l ∉ Split localDepsStdout '\n' := by
    intro l
    rw [mem_newLines, mem_newLines]
    constructor
    · rintro ⟨h1, h2⟩
      exact ⟨h1, fun hl => h2 ⟨⟨hl, h1.2⟩, List.not_mem_nil l⟩⟩
    · rintro ⟨h1, h2⟩
      exact ⟨h1, fun hl => h2 hl.1.1⟩
  refine ⟨_, AnalyzeStackFrom_eq localDepsStdout allDepsStdout, rfl, ?_, ?_, by decide⟩
  · intro l hl
    exact ((hnew l).1 hl).2
  · intro k
    rw [foldl_consumeTransitive]
    simp only [mapKeys, List.map_nil, List.not_mem_nil, false_or, hnew]
    constructor
    · rintro ⟨l, ⟨⟨h1, h2⟩, h3⟩, h4⟩
      exact ⟨l, h1, h2, h3, h4⟩
    · rintro ⟨l, h1, h2, h3, h4⟩
      exact ⟨l, ⟨⟨h1, h2⟩, h3⟩, h4⟩

/-- C6: whatever the two consumers do, the first pass invokes its consumer once for each
line of `newLines [] shallow`, the second pass once for each line of
`newLines seen full`, and no line text occurs twice in the two lists together; running
`FoldStackDeps` again on either listing with the seen set left behind returns the same
seen set and the accumulator untouched, so the consumer is not invoked. -/
theorem C6_processed_once {σ τ : Type} (localDepsStdout allDepsStdout : String)
    (consume₁ : σ → String → String → σ) (consume₂ : τ → String → String → τ)
    (acc₁ : σ) (acc₂ : τ) :
    ∃ seen₁ seen₂,
      FoldStackDeps [] localDepsStdout consume₁ acc₁ =
        some (seen₁, (newLines [] localDepsStdout).foldl (consumeLine consume₁) acc₁) ∧
      FoldStackDeps seen₁ allDepsStdout consume₂ acc₂ =
        some (seen₂, (newLines (mapKeys seen₁) allDepsStdout).foldl (consumeLine consume₂) acc₂) ∧
      (newLines [] localDepsStdout ++ newLines (mapKeys seen₁) allDepsStdout).Nodup ∧
      (∀ b, FoldStackDeps seen₁ localDepsStdout consume₁ b = some (seen₁, b)) ∧
      (∀ b, FoldStackDeps seen₂ localDepsStdout consume₁ b = some (seen₂, b)) ∧
      (∀ b, FoldStackDeps seen₂ allDepsStdout consume₂ b = some (seen₂, b)) := by
  obtain ⟨seen₁, h1, k1⟩ := FoldStackDeps_eq [] localDepsStdout consume₁ acc₁
  obtain ⟨seen₂, h2, k2⟩ := FoldStackDeps_eq seen₁ allDepsStdout consume₂ acc₂
  simp only [mapKeys, List.map_nil, List.nil_append] at h1 k1
  have k1' : mapKeys seen₁ = newLines [] localDepsStdout := k1
  refine ⟨seen₁, seen₂, h1, h2, ?_, ?_, ?_, ?_⟩
  · rw [List.nodup_append]
    refine ⟨nodup_firstOccFrom _ _, nodup_firstOccFrom _ _, ?_⟩
    intro l hl hl'
    rw [mem_newLines, k1'] at hl'
    exact hl'.2 hl
  · intro b
    apply FoldStackDeps_of_seen
    intro l hl hv
    rw [k1', mem_newLines]
    exact ⟨⟨hl, hv⟩, List.not_mem_nil l⟩
  · intro b
    apply FoldStackDeps_of_seen
    intro l hl hv
    rw [k2, List.mem_append, k1', mem_newLines]
    exact Or.inl ⟨⟨hl, hv⟩, List.not_mem_nil l⟩
  · intro b
    apply FoldStackDeps_of_seen
    intro l hl hv
    rw [k2, List.mem_append, mem_newLines]
    by_cases hm : l ∈ mapKeys seen₁
    · exact Or.inl hm
    · exact Or.inr ⟨⟨hl, hv⟩, hm⟩

/-- C7, as stated, fails: the line `foo` followed by a space has one whitespace-delimited
field, and the consumer is invoked for it, with an empty version; it gives a direct import. -/
theorem C7_counterexample :
    "foo " ∈ Split "foo " '\n' ∧ (whitespaceFields "foo ").length = 1 ∧
    FoldStackDeps [] "foo " recordCall [] = some ([("foo ", true)], [("foo", "")]) ∧
    AnalyzeStackFrom "foo " "" =
      some { Direct := [{ Target := "", Resolved := { «Type» := pkg.«Type».Haskell, Name := "foo", Revision := "" } }],
             Transitive := [] } := by
  decide

/-- C7, amended: `FoldStackDeps` never fails (the index expressions of lines 249-250 are
evaluated on lists of at least two parts only), and a line without a space character, the
lines that split on a single space into fewer than two parts, is ignored: the consumer is
invoked for the lines of `newLines` only, such a line is not among them, and it is not
added to the seen set. -/
theorem C7_lines_without_space_ignored {σ : Type} (seen : GoMap String Bool)
    (depsOutput : String) (consume : σ → String → String → σ) (acc : σ) :
    ∃ seen', FoldStackDeps seen depsOutput consume acc =
        some (seen', (newLines (mapKeys seen) depsOutput).foldl (consumeLine consume) acc) ∧
      ∀ line ∈ Split depsOutput '\n', ' ' ∉ line.data →
        (Split line ' ').length < 2 ∧
        line ∉ newLines (mapKeys seen) depsOutput ∧
        (line ∈ mapKeys seen' → line ∈ mapKeys seen) := by
  obtain ⟨seen', h1, h2⟩ := FoldStackDeps_eq seen depsOutput consume acc
  refine ⟨seen', h1, ?_⟩
  intro line _ hsp
  have hv : ¬ validLine line = true := fun hv => hsp ((validLine_iff line).1 hv)
  have hn : line ∉ newLines (mapKeys seen) depsOutput := by
    rw [mem_newLines]
    exact fun h => hv h.1.2
  refine ⟨(length_Split_lt_two line).2 hsp, hn, ?_⟩
  intro hm
  rw [h2, List.mem_append] at hm
  rcases hm with hm | hm
  · exact hm
  · exact absurd hm hn

/-- C8, as stated, fails: the line `pkg-a 1.0.0` is a valid line of the full listing, it is
also a line of the shallow listing, and its identity is not a key of the transitive map. -/
theorem C8_counterexample :
    ¬ (∃ deps, AnalyzeStackFrom "pkg-a 1.0.0" "pkg-a 1.0.0\npkg-c 3.0.0" = some deps ∧
        ∀ l ∈ Split "pkg-a 1.0.0\npkg-c 3.0.0" '\n', validLine l = true →
          lineId l ∈ mapKeys deps.Transitive) := by
  have h : AnalyzeStackFrom "pkg-a 1.0.0" "pkg-a 1.0.0\npkg-c 3.0.0" =
      some { Direct := [{ Resolved := lineId "pkg-a 1.0.0" }],
             Transitive := [(lineId "pkg-c 3.0.0", { ID := lineId "pkg-c 3.0.0" })] } := by
    decide
  rintro ⟨deps, hd, hall⟩
  rw [h] at hd
  have := hall "pkg-a 1.0.0" (by decide) (by decide)
  rw [← Option.some.inj hd] at this
  revert this
  decide

theorem splitChars_ne_nil (sep : Char) (s : List Char) : splitChars sep s ≠ [] := by
  rw [splitChars_eq]
  exact List.cons_ne_nil _ _

theorem splitChars_of_not_mem (sep : Char) (s : List Char) (h : sep ∉ s) :
    splitChars sep s = [s] := by
  induction s with
  | nil => rfl
  | cons c cs ih =>
    simp only [List.mem_cons, not_or] at h
    have hc : ¬ c = sep := fun hc => h.1 hc.symm
    simp only [splitChars, hc, if_false, ih h.2]

/-- Splitting distributes over a separator. -/
theorem splitChars_append (sep : Char) (p t : List Char) :
    splitChars sep (p ++ sep :: t) = splitChars sep p ++ splitChars sep t := by
  induction p with
  | nil => simp [splitChars]
  | cons c p ih =>
    have hs : splitChars sep (c :: p ++ sep :: t) = splitChars sep (c :: (p ++ sep :: t)) := rfl
    rw [hs]
    by_cases hc : c = sep
    · simp only [splitChars, hc, if_true, ih, List.cons_append]
    · simp only [splitChars, hc, if_false, ih]
      cases hp : splitChars sep p with
      | nil => exact absurd hp (splitChars_ne_nil sep p)
      | cons w ws => rfl

theorem isPieceOf_of_mem (sep : Char) (n : Nat) :
    ∀ (s l : List Char), s.length ≤ n → l ∈ splitChars sep s → isPieceOf sep l s := by
  induction n with
  | zero =>
    intro s l hs hl
    have hnil : s = [] := List.length_eq_zero.1 (Nat.le_zero.1 hs)
    subst hnil
    simp only [splitChars, List.mem_singleton] at hl
    subst hl
    exact ⟨by simp, [], [], rfl, Or.inl rfl, Or.inl rfl⟩
  | succ n ih =>
    intro s l hs hl
    by_cases hsep : sep ∈ s
    · obtain ⟨a, b, rfl⟩ := List.append_of_mem hsep
      rw [splitChars_append, List.mem_append] at hl
      have hlen : a.length + b.length + 1 = (a ++ sep :: b).length := by simp; omega
      rcases hl with hl | hl
      · obtain ⟨h1, before, after, h2, h3, h4⟩ := ih a l (by omega) hl
        refine ⟨h1, before, after ++ sep :: b, by rw [h2]; simp, h3, ?_⟩
        rcases h4 with h4 | ⟨q, h4⟩
        · exact Or.inr ⟨b, by rw [h4]; rfl⟩
        · exact Or.inr ⟨q ++ sep :: b, by rw [h4]; rfl⟩
      · obtain ⟨h1, before, after, h2, h3, h4⟩ := ih b l (by omega) hl
        refine ⟨h1, a ++ sep :: before, after, by rw [h2]; simp, ?_, h4⟩
        rcases h3 with h3 | ⟨p, h3⟩
        · exact Or.inr ⟨a, by rw [h3]⟩
        · exact Or.inr ⟨a ++ sep :: p, by rw [h3]; simp⟩
    · rw [splitChars_of_not_mem sep s hsep, List.mem_singleton] at hl
      subst hl
      exact ⟨hsep, [], [], by simp, Or.inl rfl, Or.inl rfl⟩

/-- The parts given by `splitChars` are exactly the pieces of the text. -/
theorem mem_splitChars_iff (sep : Char) (s l : List Char) :
    l ∈ splitChars sep s ↔ isPieceOf sep l s := by
  constructor
  · exact isPieceOf_of_mem sep s.length s l (Nat.le_refl _)
  · rintro ⟨h1, before, after, rfl, h3, h4⟩
    have hl : ∀ after, (after = [] ∨ ∃ q, after = sep :: q) → l ∈ splitChars sep (l ++ after) := by
      intro after h
      rcases h with h | ⟨q, h⟩
      · rw [h, List.append_nil, splitChars_of_not_mem sep l h1]
        exact List.mem_singleton.2 rfl
      · rw [h, splitChars_append, splitChars_of_not_mem sep l h1]
        exact List.mem_append_left _ (List.mem_singleton.2 rfl)
    rcases h3 with h3 | ⟨p, h3⟩
    · rw [h3, List.nil_append]
      exact hl after h4
    · rw [h3]
      have : p ++ [sep] ++ l ++ after = p ++ sep :: (l ++ after) := by simp
      rw [this, splitChars_append]
      exact List.mem_append_right _ (hl after h4)

/-- The lines read by `FoldStackDeps` are exactly the lines of the listing. -/
theorem mem_Split_newline_iff (text l : String) :
    l ∈ Split text '\n' ↔ isLineOf l text := by
  unfold Split isLineOf
  rw [← mem_splitChars_iff]
  constructor
  · intro h
    obtain ⟨cs, hcs, rfl⟩ := List.mem_map.1 h
    exact hcs
  · intro h
    exact List.mem_map.2 ⟨l.data, h, rfl⟩

/-- C8, amended: for a valid line of the full listing (a line with a space), when its text
is not a line of the shallow listing its identity is a key of the transitive map; when
its text is a line of the shallow listing its identity is in the direct-import sequence,
and it is a key of the transitive map only if another valid line of the full listing,
absent from the shallow listing, has the same identity. With the shallow listing
`pkg-a 1.0.0` and the full listing `pkg-a 1.0.0`, `pkg-c 3.0.0` the graph has
the direct import `pkg-a@1.0.0` and the one transitive key `pkg-c@3.0.0`. -/
theorem C8_full_listing_covered (localDepsStdout allDepsStdout : String) (l : String)
    (hl : isLineOf l allDepsStdout) (hv : ' ' ∈ l.data) :
    (∃ deps, AnalyzeStackFrom localDepsStdout allDepsStdout = some deps ∧
      (¬ isLineOf l localDepsStdout → lineId l ∈ mapKeys deps.Transitive) ∧
      (isLineOf l localDepsStdout →
        lineId l ∈ deps.Direct.map (fun i => i.Resolved) ∧
        (lineId l ∈ mapKeys deps.Transitive →
          ∃ l', isLineOf l' allDepsStdout ∧ ' ' ∈ l'.data ∧
            ¬ isLineOf l' localDepsStdout ∧ lineId l' = lineId l))) ∧
    AnalyzeStackFrom "pkg-a 1.0.0" "pkg-a 1.0.0\npkg-c 3.0.0" =
      some
        { Direct :=
            [{ Target := "", Resolved := { «Type» := pkg.«Type».Haskell, Name := "pkg-a", Revision := "1.0.0" } }],
          Transitive :=
            [({ «Type» := pkg.«Type».Haskell, Name := "pkg-c", Revision := "3.0.0" },
              { ID := { «Type» := pkg.«Type».Haskell, Name := "pkg-c", Revision := "3.0.0" },
                Imports := [] })] } := by
  have hl' : l ∈ Split allDepsStdout '\n' := (mem_Split_newline_iff _ _).2 hl
  have hv' : validLine l = true := (validLine_iff l).2 hv
  refine ⟨⟨_, AnalyzeStackFrom_eq localDepsStdout allDepsStdout, ?_, ?_⟩, by decide⟩
  · intro hn
    rw [foldl_consumeTransitive]
    refine Or.inr ⟨l, ?_, rfl⟩
    rw [mem_newLines, mem_newLines]
    exact ⟨⟨hl', hv'⟩, fun h => hn ((mem_Split_newline_iff _ _).1 h.1.1)⟩
  · intro hm
    have hm' : l ∈ Split localDepsStdout '\n' := (mem_Split_newline_iff _ _).2 hm
    have hnew : l ∈ newLines [] localDepsStdout := by
      rw [mem_newLines]
      exact ⟨⟨hm', hv'⟩, List.not_mem_nil l⟩
    constructor
    · simp only [List.map_map, List.mem_map]
      exact ⟨l, hnew, rfl⟩
    · intro hk
      rw [foldl_consumeTransitive] at hk
      rcases hk with hk | ⟨x, hx, hxl⟩
      · exact absurd hk (by simp [mapKeys])
      · rw [mem_newLines, mem_newLines] at hx
        refine ⟨x, (mem_Split_newline_iff _ _).1 hx.1.1, (validLine_iff x).1 hx.1.2, ?_, hxl⟩
        intro hxs
        exact hx.2 ⟨⟨(mem_Split_newline_iff _ _).2 hxs, hx.1.2⟩, List.not_mem_nil x⟩

/-- C8, amended, at the line `pkg-a 1.0.0`, which is in both example listings: its
identity is a direct import and not a key of the transitive map. -/
theorem C8_full_listing_covered_witness :
    isLineOf "pkg-a 1.0.0" "pkg-a 1.0.0\npkg-c 3.0.0" ∧ ' ' ∈ "pkg-a 1.0.0".data ∧
    isLineOf "pkg-a 1.0.0" "pkg-a 1.0.0" ∧
    ∃ deps, AnalyzeStackFrom "pkg-a 1.0.0" "pkg-a 1.0.0\npkg-c 3.0.0" = some deps ∧
      ({ «Type» := pkg.«Type».Haskell, Name := "pkg-a", Revision := "1.0.0" } : pkg.ID) ∈
        deps.Direct.map (fun i => i.Resolved) ∧
      ({ «Type» := pkg.«Type».Haskell, Name := "pkg-a", Revision := "1.0.0" } : pkg.ID) ∉
        mapKeys deps.Transitive ∧
      ({ «Type» := pkg.«Type».Haskell, Name := "pkg-c", Revision := "3.0.0" } : pkg.ID) ∈
        mapKeys deps.Transitive :=
  ⟨(mem_Split_newline_iff _ _).1 (by decide), by decide,
    (mem_Split_newline_iff _ _).1 (by decide),
    by
      have h := (C8_full_listing_covered "pkg-a 1.0.0" "pkg-a 1.0.0\npkg-c 3.0.0" "pkg-a 1.0.0"
        ((mem_Split_newline_iff _ _).1 (by decide)) (by decide)).2
      exact ⟨_, h, by decide, by decide, by decide⟩⟩

/-- C9: the direct-import sequence lists, in listing order, the identities of the valid
lines of the shallow listing, each line at its first occurrence; the name is the text
before the first space, the revision the text between the first and the second space;
the pass starts from the empty seen set, and the full listing has no effect on it. -/
theorem C9_direct_imports_listing (localDepsStdout allDepsStdout : String) :
    ∃ deps, AnalyzeStackFrom localDepsStdout allDepsStdout = some deps ∧
      deps.Direct =
        (firstOccFrom [] ((Split localDepsStdout '\n').filter validLine)).map
          (fun l => { Target := "",
                      Resolved := { «Type» := pkg.«Type».Haskell,
                                    Name := lineName l, Revision := lineVersion l } }) ∧
      (firstOccFrom [] ((Split localDepsStdout '\n').filter validLine)).Nodup ∧
      (firstOccFrom [] ((Split localDepsStdout '\n').filter validLine)).Sublist
        ((Split localDepsStdout '\n').filter validLine) ∧
      (∀ l, l ∈ firstOccFrom [] ((Split localDepsStdout '\n').filter validLine) ↔
        l ∈ Split localDepsStdout '\n' ∧ ' ' ∈ l.data) ∧
      (∃ seen, FoldStackDeps [] localDepsStdout consumeImport [] = some (seen, deps.Direct)) ∧
      AnalyzeStackFrom "b 2\na 1 x y\n\nb 2\nc\na 1 x y" "" =
        some { Direct :=
                 [{ Target := "", Resolved := { «Type» := pkg.«Type».Haskell, Name := "b", Revision := "2" } },
                  { Target := "", Resolved := { «Type» := pkg.«Type».Haskell, Name := "a", Revision := "1" } }],
               Transitive := [] } := by
  refine ⟨_, AnalyzeStackFrom_eq localDepsStdout allDepsStdout, rfl, nodup_firstOccFrom _ _,
    sublist_firstOccFrom _ _, ?_, ?_, by decide⟩
  · intro l
    rw [mem_firstOccFrom, List.mem_filter, validLine_iff]
    simp
  · obtain ⟨seen, h1, _⟩ := FoldStackDeps_eq [] localDepsStdout consumeImport []
    refine ⟨seen, ?_⟩
    rw [h1, foldl_consumeImport]
    rfl

end haskell

/-! ## Further facts about the plan-based extractor -/

namespace haskell

open gomap

theorem mapGet_eq_of_perm {κ ν : Type} [DecidableEq κ] (m₁ m₂ : GoMap κ ν) (h : m₁.Perm m₂)
    (hnd : (mapKeys m₁).Nodup) (k : κ) : mapGet m₁ k = mapGet m₂ k := by
  have hnd₂ : (mapKeys m₂).Nodup := ((h.map Prod.fst).nodup_iff).1 hnd
  cases h1 : mapGet m₁ k with
  | none =>
    have hk : k ∉ mapKeys m₁ := (mapGet_eq_none m₁ k).1 h1
    have hk₂ : k ∉ mapKeys m₂ := fun hm => hk (((h.map Prod.fst).mem_iff).2 hm)
    exact ((mapGet_eq_none m₂ k).2 hk₂).symm
  | some v =>
    have hm : (k, v) ∈ m₂ := h.mem_iff.1 (mapGet_mem m₁ k v h1)
    exact (mapGet_of_mem m₂ hnd₂ k v hm).symm

theorem foldl_transitive_entries (l : List (String × Package)) (t : GoMap pkg.ID pkg.Package) :
    ∀ e ∈ l.foldl (fun transitive e =>
        mapSet transitive (pkgIdOf e.2) { ID := pkgIdOf e.2 }) t,
      e ∈ t ∨ ∃ x ∈ l, e = (pkgIdOf x.2, { ID := pkgIdOf x.2 }) := by
  induction l generalizing t with
  | nil => intro e he; exact Or.inl he
  | cons x l ih =>
    intro e he
    simp only [List.foldl_cons] at he
    rcases ih _ e he with h | ⟨y, hy, hey⟩
    · rcases mem_mapSet _ _ _ e h with h | h
      · exact Or.inr ⟨x, List.mem_cons_self _ _, h⟩
      · exact Or.inl h
    · exact Or.inr ⟨y, List.mem_cons_of_mem _ hy, hey⟩

/-- Every entry of the transitive map stores the record of its key. -/
theorem transitive_entry (ord : IterOrder) (plan : CabalPlan) :
    ∀ e ∈ (AnalyzeCabal ord plan).Transitive,
      e.2 = { ID := e.1 } ∧ e.1.«Type» = pkg.«Type».Haskell := by
  intro e he
  rw [AnalyzeCabal_Transitive] at he
  rcases foldl_transitive_entries _ [] e he with h | ⟨x, _, hx⟩
  · exact absurd h (List.not_mem_nil e)
  · rw [hx]
    exact ⟨rfl, rfl⟩

theorem nodup_keys_transitive (ord : IterOrder) (plan : CabalPlan) :
    (mapKeys (AnalyzeCabal ord plan).Transitive).Nodup := by
  rw [AnalyzeCabal_Transitive]
  exact (foldl_transitive _ [] (by simp [mapKeys])).1

theorem transitive_eq_map_keys (ord : IterOrder) (plan : CabalPlan) :
    (AnalyzeCabal ord plan).Transitive =
      (mapKeys (AnalyzeCabal ord plan).Transitive).map
        (fun k => (k, ({ ID := k } : pkg.Package))) := by
  rw [mapKeys, List.map_map]
  conv_lhs => rw [← List.map_id (AnalyzeCabal ord plan).Transitive]
  apply List.map_congr_left
  intro e he
  have := (transitive_entry ord plan e he).1
  simp only [id, Function.comp]
  exact Prod.ext rfl this

/-- The transitive maps computed under two iteration orders have the same entries. -/
theorem transitive_perm (ord₁ ord₂ : IterOrder) (plan : CabalPlan) :
    (AnalyzeCabal ord₁ plan).Transitive.Perm (AnalyzeCabal ord₂ plan).Transitive := by
  rw [transitive_eq_map_keys ord₁ plan, transitive_eq_map_keys ord₂ plan]
  apply List.Perm.map
  apply (List.perm_ext_iff_of_nodup (nodup_keys_transitive ord₁ plan)
    (nodup_keys_transitive ord₂ plan)).2
  intro k
  rw [mem_keys_transitive, mem_keys_transitive, poolAfterImports_eq, poolAfterImports_eq]

theorem mapGet_mapDelete_none {κ ν : Type} [DecidableEq κ] (m : GoMap κ ν) (k d : κ)
    (h : mapGet m d = none) : mapGet (mapDelete m k) d = none := by
  rw [mapGet_eq_none] at h ⊢
  intro hm
  apply h
  exact ((List.filter_sublist m).map Prod.fst).subset hm

theorem claimDep_keeps_absent (st : GoMap String Package × List pkg.Import) (d' d : String)
    (h : mapGet st.1 d = none) : mapGet (claimDep st d').1 d = none := by
  unfold claimDep
  cases hget : mapGet st.1 d' with
  | none => simpa using h
  | some dep => exact mapGet_mapDelete_none st.1 d' d h

theorem foldl_claimDep_keeps_absent (ds : List String)
    (st : GoMap String Package × List pkg.Import) (d : String)
    (h : mapGet st.1 d = none) : mapGet (ds.foldl claimDep st).1 d = none := by
  induction ds generalizing st with
  | nil => exact h
  | cons d' ds ih => exact ih _ (claimDep_keeps_absent st d' d h)

theorem claimDep_of_absent (st : GoMap String Package × List pkg.Import) (d : String)
    (h : mapGet st.1 d = none) : claimDep st d = st := by
  simp [claimDep, h]

theorem isOurId_iff (pool : GoMap String Package) (id : String) :
    isOurId pool id = true ↔ ∃ e ∈ pool, e.1 = id ∧ isOurProject e.2 = true := by
  simp [isOurId]

/-- The id of one of our projects is not a key of the pool once the loop of lines 113-118
is over. -/
theorem mapGet_poolAfterPartition_ours (ord : IterOrder) (plan : CabalPlan) (d : String)
    (h : isOurId (buildPool plan) d = true) : mapGet (poolAfterPartition ord plan) d = none := by
  obtain ⟨e, he, hed, ho⟩ := (isOurId_iff _ _).1 h
  rw [mapGet_eq_none, poolAfterPartition_eq]
  intro hm
  obtain ⟨x, hx, hxd⟩ := List.mem_map.1 hm
  obtain ⟨hx1, hx2⟩ := List.mem_filter.1 hx
  have hxe : x.2 = e.2 := by
    apply entry_unique (buildPool plan) (nodup_buildPool plan) d
    · rw [← hxd]; exact hx1
    · rw [← hed]; exact he
  rw [hxe, ho] at hx2
  exact Bool.noConfusion hx2

theorem foldl_claimDep_filter_absent (ds : List String) (skip : String → Bool)
    (st : GoMap String Package × List pkg.Import)
    (h : ∀ d, skip d = true → mapGet st.1 d = none) :
    ds.foldl claimDep st = (ds.filter (fun d => !skip d)).foldl claimDep st := by
  induction ds generalizing st with
  | nil => rfl
  | cons d ds ih =>
    cases hs : skip d
    · simp only [List.foldl_cons, List.filter_cons, hs, Bool.not_false, if_true]
      exact ih _ (fun d' hd' => claimDep_keeps_absent st d d' (h d' hd'))
    · simp only [List.foldl_cons, List.filter_cons, hs, Bool.not_true, Bool.false_eq_true,
        if_false]
      rw [claimDep_of_absent st d (h d hs)]
      exact ih st h

/-! ## Further claims about the plan-based extractor -/

/-- C11: when no package of the plan has both kind "configured" and style "local", the
direct-import sequence is empty and the keys of the transitive map are exactly the
identities (Haskell, name, version) of the packages of the pool. -/
theorem C11_no_local_packages (ord : IterOrder) (plan : CabalPlan)
    (hnone : ∀ p ∈ plan.Packages, ¬ (p.«Type» = "configured" ∧ p.Style = "local")) :
    (AnalyzeCabal ord plan).Direct = [] ∧
    ∀ k : pkg.ID, k ∈ mapKeys (AnalyzeCabal ord plan).Transitive ↔
      ∃ e ∈ buildPool plan,
        k = { «Type» := pkg.«Type».Haskell, Name := e.2.Name, Revision := e.2.Version } := by
  have hno : ∀ e ∈ buildPool plan, isOurProject e.2 = false := by
    intro e he
    exact (isOurProject_eq_false_iff e.2).2 (hnone e.2 (mem_buildPool plan e he).2)
  have href : ∀ id, referenced (buildPool plan) id = false := by
    intro id
    cases hr : referenced (buildPool plan) id
    · rfl
    · obtain ⟨e, he, ho, _⟩ := (referenced_iff _ _).1 hr
      rw [hno e he] at ho
      exact Bool.noConfusion ho
  constructor
  · have hp := direct_perm ord plan
    have hnil : (buildPool plan).filter
        (fun e => !isOurProject e.2 && referenced (buildPool plan) e.1) = [] := by
      apply List.filter_eq_nil_iff.2
      intro e _
      simp [href]
    rw [hnil] at hp
    exact hp.eq_nil
  · intro k
    rw [mem_keys_transitive, poolAfterImports_eq]
    constructor
    · rintro ⟨e, he, rfl⟩
      exact ⟨e, (List.mem_filter.1 he).1, rfl⟩
    · rintro ⟨e, he, rfl⟩
      exact ⟨e, List.mem_filter.2 ⟨he, by simp [hno e he, href]⟩, rfl⟩

/-- C11 at a plan without local packages: no direct import, and the keys of the
transitive map are `lib-a@1.0.0`, `lib-b@2.0.0` and `lib-c@0.1.0`. -/
theorem C11_no_local_packages_witness :
    (∀ p ∈ noLocalPlan.Packages, ¬ (p.«Type» = "configured" ∧ p.Style = "local")) ∧
    (AnalyzeCabal storedOrder noLocalPlan).Direct = [] ∧
    ({ «Type» := pkg.«Type».Haskell, Name := "lib-b", Revision := "2.0.0" } : pkg.ID) ∈
      mapKeys (AnalyzeCabal storedOrder noLocalPlan).Transitive ∧
    mapKeys (AnalyzeCabal storedOrder noLocalPlan).Transitive =
      [{ «Type» := pkg.«Type».Haskell, Name := "lib-a", Revision := "1.0.0" },
       { «Type» := pkg.«Type».Haskell, Name := "lib-b", Revision := "2.0.0" },
       { «Type» := pkg.«Type».Haskell, Name := "lib-c", Revision := "0.1.0" }] :=
  ⟨by decide, (C11_no_local_packages storedOrder noLocalPlan (by decide)).1,
    ((C11_no_local_packages storedOrder noLocalPlan (by decide)).2 _).2
      ⟨("p2", libB), by decide, rfl⟩,
    by decide⟩

/-- C12: a dependency id that is the key of an our-project package of the pool appends
nothing: whatever ids were walked before it, the step of lines 126-137 (142-153) leaves the
pool and the import sequence as they are; and the direct-import sequence is the one
obtained when all such ids are left out of the walk. -/
theorem C12_ours_never_emitted (ord : IterOrder) (plan : CabalPlan) (depId : String)
    (hours : ∃ e ∈ buildPool plan, e.1 = depId ∧ isOurProject e.2 = true) :
    (∀ walked : List String,
      claimDep (walked.foldl claimDep (poolAfterPartition ord plan, [])) depId =
        walked.foldl claimDep (poolAfterPartition ord plan, [])) ∧
    (AnalyzeCabal ord plan).Direct =
      (((walkedDeps ord (ourProjectsOf ord plan)).filter
        (fun d => !isOurId (buildPool plan) d)).foldl claimDep
          (poolAfterPartition ord plan, [])).2 := by
  constructor
  · intro walked
    apply claimDep_of_absent
    apply foldl_claimDep_keeps_absent
    exact mapGet_poolAfterPartition_ours ord plan depId ((isOurId_iff _ _).2 hours)
  · rw [AnalyzeCabal_Direct, directImports_eq]
    congr 1
    exact foldl_claimDep_filter_absent _ _ _
      (fun d hd => mapGet_poolAfterPartition_ours ord plan d hd)

/-- C12 at a plan whose local package lists itself among its dependencies. -/
theorem C12_ours_never_emitted_witness :
    (∃ e ∈ buildPool selfReferencePlan,
      e.1 = "self-0.1-inplace" ∧ isOurProject e.2 = true) ∧
    claimDep (["p1"].foldl claimDep (poolAfterPartition storedOrder selfReferencePlan, []))
        "self-0.1-inplace" =
      ["p1"].foldl claimDep (poolAfterPartition storedOrder selfReferencePlan, []) ∧
    (AnalyzeCabal storedOrder selfReferencePlan).Direct = [importOf libA] :=
  ⟨by decide,
    (C12_ours_never_emitted storedOrder selfReferencePlan "self-0.1-inplace" (by decide)).1
      ["p1"],
    by decide⟩

/-- C15: under any two choices of the iteration orders the direct-import sequences are
permutations of each other and the transitive maps are the same map (the same entries,
the same value for every key); every order of visiting the entries of a map is the order
of some seed, so the statement covers every iteration order. -/
theorem C15_order_independent (ord₁ ord₂ : IterOrder) (plan : CabalPlan) :
    (AnalyzeCabal ord₁ plan).Direct.Perm (AnalyzeCabal ord₂ plan).Direct ∧
    (AnalyzeCabal ord₁ plan).Transitive.Perm (AnalyzeCabal ord₂ plan).Transitive ∧
    (∀ k : pkg.ID, mapGet (AnalyzeCabal ord₁ plan).Transitive k =
      mapGet (AnalyzeCabal ord₂ plan).Transitive k) ∧
    (∀ m visited : GoMap String Package, visited.Perm m → ∃ seed, mapRange seed m = visited) :=
  ⟨(direct_perm ord₁ plan).trans (direct_perm ord₂ plan).symm,
    transitive_perm ord₁ ord₂ plan,
    mapGet_eq_of_perm _ _ (transitive_perm ord₁ ord₂ plan) (nodup_keys_transitive ord₁ plan),
    fun m visited h => shuffle_surj m visited h⟩

end haskell

/-! ## Further facts about the listing-based extractor -/

namespace haskell

open gomap

theorem mapSet_of_not_mem {κ ν : Type} [DecidableEq κ] (m : GoMap κ ν) (k : κ) (v : ν)
    (h : k ∉ mapKeys m) : mapSet m k v = m ++ [(k, v)] := by
  induction m with
  | nil => rfl
  | cons e rest ih =>
    obtain ⟨k', v'⟩ := e
    simp only [mapKeys, List.map_cons, List.mem_cons, not_or] at h
    have hne : ¬ k' = k := fun hk => h.1 hk.symm
    simp only [mapSet, hne, if_false, List.cons_append]
    rw [ih h.2]

/-- The seen set after the loop of `FoldStackDeps`: the entries it had, followed by one
entry for each new line. -/
theorem foldLines_seen {σ : Type} (consume : σ → String → String → σ) (lines : List String)
    (seen : GoMap String Bool) (acc : σ) :
    ∃ acc', foldLines consume lines (seen, acc) =
      some (seen ++ (firstOccFrom (mapKeys seen) (lines.filter validLine)).map
        (fun l => (l, true)), acc') := by
  induction lines generalizing seen acc with
  | nil => exact ⟨acc, by simp [foldLines, firstOccFrom]⟩
  | cons line rest ih =>
    by_cases hv : validLine line = true
    · have hlen : ¬ (Split line ' ').length < 2 := by
        have := hv
        simp only [validLine, decide_eq_true_eq] at this
        omega
      obtain ⟨h0, h1'⟩ := Split_fields line hv
      rw [List.filter_cons_of_pos hv]
      simp only [foldLines, hlen, if_false, h0, h1', firstOccFrom]
      cases hget : mapGet seen line with
      | some b =>
        have hmem : line ∈ mapKeys seen := by
          by_contra hc
          rw [(mapGet_eq_none seen line).2 hc] at hget
          exact Option.noConfusion hget
        simp only [hmem, if_true]
        exact ih seen acc
      | none =>
        have hmem : line ∉ mapKeys seen := (mapGet_eq_none seen line).1 hget
        simp only [hmem, if_false, List.map_cons]
        obtain ⟨acc', h⟩ := ih (mapSet seen line true)
          (consume acc (lineName line) (lineVersion line))
        refine ⟨acc', ?_⟩
        rw [h, mapSet_of_not_mem seen line true hmem]
        have hk : mapKeys (seen ++ [(line, true)]) = mapKeys seen ++ [line] := by
          simp [mapKeys]
        rw [hk]
        simp
    · have hlen : (Split line ' ').length < 2 := by
        have := hv
        simp only [validLine, decide_eq_true_eq] at this
        omega
      rw [List.filter_cons_of_neg hv]
      simp only [foldLines, hlen, if_true]
      exact ih seen acc

theorem foldl_consumeTransitive_entries (lines : List String) (t : GoMap pkg.ID pkg.Package) :
    ∀ e ∈ lines.foldl (consumeLine consumeTransitive) t,
      e ∈ t ∨ ∃ l ∈ lines, e = (lineId l, { ID := lineId l }) := by
  induction lines generalizing t with
  | nil => intro e he; exact Or.inl he
  | cons l ls ih =>
    intro e he
    simp only [List.foldl_cons] at he
    rcases ih _ e he with h | ⟨y, hy, hey⟩
    · rcases mem_mapSet _ _ _ e h with h | h
      · exact Or.inr ⟨l, List.mem_cons_self _ _, h⟩
      · exact Or.inl h
    · exact Or.inr ⟨y, List.mem_cons_of_mem _ hy, hey⟩

theorem nodup_keys_consumeTransitive (lines : List String) (t : GoMap pkg.ID pkg.Package)
    (ht : (mapKeys t).Nodup) :
    (mapKeys (lines.foldl (consumeLine consumeTransitive) t)).Nodup := by
  induction lines generalizing t with
  | nil => exact ht
  | cons l ls ih =>
    simp only [List.foldl_cons]
    exact ih _ (nodup_mapKeys_mapSet _ _ _ ht)

/-- In a map with distinct keys whose entries store the record of their key, the record
found under a key has that key as its `ID`. -/
theorem mapGet_ID (t : GoMap pkg.ID pkg.Package) (h : ∀ e ∈ t, e.2.ID = e.1) (k : pkg.ID)
    (v : pkg.Package) (hget : mapGet t k = some v) : v.ID = k :=
  h (k, v) (mapGet_mem t k v hget)

/-! ## Further claims -/

/-- C13: the code does not do what the claim says for the second invocation. When the first
invocation fails, `AnalyzeStack` returns the error and the empty graph; when the first
invocation succeeds it returns a graph and no error whatever the second invocation gave: at
`localRunOk`, `allRunFailed` it returns the graph with the direct import `pkg-a@1.0.0` and
the error `nil`. -/
theorem C13_second_error_dropped :
    Analyzer.AnalyzeStack localRunOk allRunFailed =
      Outcome.returned
        { Direct := [{ Target := "", Resolved := { «Type» := pkg.«Type».Haskell, Name := "pkg-a", Revision := "1.0.0" } }],
          Transitive := [] }
        none ∧
    allRunFailed.err ≠ none ∧
    (∀ (localRun allRun : RunResult) (err : String), localRun.err = some err →
      Analyzer.AnalyzeStack localRun allRun = Outcome.returned emptyDeps (some err)) ∧
    (∀ localRun allRun : RunResult, localRun.err = none →
      ∃ deps, Analyzer.AnalyzeStack localRun allRun = Outcome.returned deps none) := by
  refine ⟨by decide, by decide, ?_, ?_⟩
  · intro localRun allRun err h
    simp [Analyzer.AnalyzeStack, h]
  · intro localRun allRun h
    refine ⟨{ Direct := (newLines [] localRun.stdout).map (fun l => { Resolved := lineId l }),
              Transitive := (newLines (newLines [] localRun.stdout) allRun.stdout).foldl
                (consumeLine consumeTransitive) [] }, ?_⟩
    simp only [Analyzer.AnalyzeStack, h, AnalyzeStackFrom_eq]

/-- C14: `Analyze` gives the outcome of `AnalyzeCabal` for the strategy "cabal-install",
the outcome of `AnalyzeStack` for the strategy "stack", and panics for every other
strategy, so for the empty string and for "Stack". -/
theorem C14_strategy_dispatch (a : Analyzer) (cabal : CabalRun) (localRun allRun : RunResult) :
    (a.Options.Strategy = "cabal-install" →
      Analyzer.Analyze a cabal localRun allRun = Analyzer.AnalyzeCabal cabal) ∧
    (a.Options.Strategy = "stack" →
      Analyzer.Analyze a cabal localRun allRun = Analyzer.AnalyzeStack localRun allRun) ∧
    (a.Options.Strategy ≠ "cabal-install" → a.Options.Strategy ≠ "stack" →
      Analyzer.Analyze a cabal localRun allRun =
        Outcome.panicked ("Unknown haskell analysis strategy: " ++ a.Options.Strategy)) ∧
    Analyzer.Analyze { Options := { Strategy := "" } } cabal localRun allRun =
      Outcome.panicked "Unknown haskell analysis strategy: " ∧
    Analyzer.Analyze { Options := { Strategy := "Stack" } } cabal localRun allRun =
      Outcome.panicked "Unknown haskell analysis strategy: Stack" := by
  refine ⟨?_, ?_, ?_, ?_, ?_⟩
  · intro h
    simp [Analyzer.Analyze, h]
  · intro h
    have hne : ¬ a.Options.Strategy = "cabal-install" := by rw [h]; decide
    simp [Analyzer.Analyze, h]
  · intro h1 h2
    simp [Analyzer.Analyze, h1, h2]
  · have h1 : ¬ ("" : String) = "cabal-install" := by decide
    have h2 : ¬ ("" : String) = "stack" := by decide
    simp only [Analyzer.Analyze, h1, h2, if_false]
    decide
  · have h1 : ¬ ("Stack" : String) = "cabal-install" := by decide
    have h2 : ¬ ("Stack" : String) = "stack" := by decide
    simp only [Analyzer.Analyze, h1, h2, if_false]
    decide

/-- C16: `FoldStackDeps` returns, and the seen set it leaves is the initial one followed by
one entry for each new line; its keys are the initial keys and the texts of the valid
lines of the listing, where the lines are the pieces of the listing between line feeds
and a line is valid when it has a space (it splits on a single space into at least two
parts); every initial entry is kept; a line without a space is a key afterwards only if it
was one before. From the seen set with `b 2` and `old` the listing with the lines `a 1`,
`b 2`, the empty line, `foo`, `a 1`, `c 3 x` leaves `b 2`, `old`, `a 1`, `c 3 x`. -/
theorem C16_seen_effect {σ : Type} (seen : GoMap String Bool) (depsOutput : String)
    (consume : σ → String → String → σ) (acc : σ) :
    (∃ seen' acc', FoldStackDeps seen depsOutput consume acc = some (seen', acc') ∧
      seen' = seen ++ (newLines (mapKeys seen) depsOutput).map (fun l => (l, true)) ∧
      (∀ l, l ∈ mapKeys seen' ↔
        l ∈ mapKeys seen ∨ (l ∈ Split depsOutput '\n' ∧ 2 ≤ (Split l ' ').length)) ∧
      (∀ l, l ∈ mapKeys seen' ↔
        l ∈ mapKeys seen ∨ (isLineOf l depsOutput ∧ ' ' ∈ l.data)) ∧
      (∀ e ∈ seen, e ∈ seen') ∧
      (∀ l, (Split l ' ').length < 2 → l ∈ mapKeys seen' → l ∈ mapKeys seen) ∧
      (∀ l, ' ' ∉ l.data → l ∈ mapKeys seen' → l ∈ mapKeys seen)) ∧
    FoldStackDeps [("b 2", true), ("old", false)] "a 1\nb 2\n\nfoo\na 1\nc 3 x" recordCall [] =
      some ([("b 2", true), ("old", false), ("a 1", true), ("c 3 x", true)],
        [("a", "1"), ("c", "3")]) ∧
    FoldStackDeps [] "a 1\nb 2" recordCall [] =
      some ([("a 1", true), ("b 2", true)], [("a", "1"), ("b", "2")]) := by
  obtain ⟨acc', h⟩ := foldLines_seen consume (Split depsOutput '\n') seen acc
  have hkeys : ∀ l, l ∈ mapKeys (seen ++ (newLines (mapKeys seen) depsOutput).map
      (fun l => (l, true))) ↔
        l ∈ mapKeys seen ∨ (l ∈ Split depsOutput '\n' ∧ 2 ≤ (Split l ' ').length) := by
    intro l
    have hv : validLine l = true ↔ 2 ≤ (Split l ' ').length := by
      simp [validLine]
    rw [← hv]
    simp only [mapKeys, List.map_append, List.map_map, List.mem_append]
    have : (newLines (List.map Prod.fst seen) depsOutput).map
        (Prod.fst ∘ fun l => (l, true)) = newLines (List.map Prod.fst seen) depsOutput := by
      simp [Function.comp_def]
    rw [this, mem_newLines]
    constructor
    · rintro (h | h)
      · exact Or.inl h
      · exact Or.inr h.1
    · rintro (h | h)
      · exact Or.inl h
      · by_cases hm : l ∈ List.map Prod.fst seen
        · exact Or.inl hm
        · exact Or.inr ⟨h, hm⟩
  have hkeys' : ∀ l, l ∈ mapKeys (seen ++ (newLines (mapKeys seen) depsOutput).map
      (fun l => (l, true))) ↔
        l ∈ mapKeys seen ∨ (isLineOf l depsOutput ∧ ' ' ∈ l.data) := by
    intro l
    rw [hkeys l, mem_Split_newline_iff, ← validLine_iff]
    simp [validLine]
  refine ⟨⟨_, acc', h, rfl, hkeys, hkeys', ?_, ?_, ?_⟩, by decide, by decide⟩
  · intro e he
    exact List.mem_append_left _ he
  · intro l hl hm
    rcases (hkeys l).1 hm with h | h
    · exact h
    · omega
  · intro l hl hm
    rcases (hkeys' l).1 hm with h | h
    · exact h
    · exact absurd h.2 hl

/-- C17: in the graph of either extractor every entry of the transitive map stores a record
whose `ID` is its key, so the record found under a key `k` has `ID = k`; every key and
every direct-import identity has the ecosystem tag `Haskell`. -/
theorem C17_well_formed (ord : IterOrder) (plan : CabalPlan)
    (localDepsStdout allDepsStdout : String) :
    ((∀ e ∈ (AnalyzeCabal ord plan).Transitive,
        e.2.ID = e.1 ∧ e.1.«Type» = pkg.«Type».Haskell) ∧
      (∀ k v, mapGet (AnalyzeCabal ord plan).Transitive k = some v → v.ID = k) ∧
      (∀ i ∈ (AnalyzeCabal ord plan).Direct, i.Resolved.«Type» = pkg.«Type».Haskell)) ∧
    ∃ deps, AnalyzeStackFrom localDepsStdout allDepsStdout = some deps ∧
      (∀ e ∈ deps.Transitive, e.2.ID = e.1 ∧ e.1.«Type» = pkg.«Type».Haskell) ∧
      (∀ k v, mapGet deps.Transitive k = some v → v.ID = k) ∧
      (∀ i ∈ deps.Direct, i.Resolved.«Type» = pkg.«Type».Haskell) := by
  have hc : ∀ e ∈ (AnalyzeCabal ord plan).Transitive,
      e.2.ID = e.1 ∧ e.1.«Type» = pkg.«Type».Haskell := by
    intro e he
    obtain ⟨h1, h2⟩ := transitive_entry ord plan e he
    rw [h1]
    exact ⟨rfl, h2⟩
  have hs : ∀ e ∈ (newLines (newLines [] localDepsStdout) allDepsStdout).foldl
      (consumeLine consumeTransitive) [],
      e.2.ID = e.1 ∧ e.1.«Type» = pkg.«Type».Haskell := by
    intro e he
    rcases foldl_consumeTransitive_entries _ [] e he with h | ⟨l, _, hl⟩
    · exact absurd h (List.not_mem_nil e)
    · rw [hl]
      exact ⟨rfl, rfl⟩
  refine ⟨⟨hc, ?_, ?_⟩, _, AnalyzeStackFrom_eq localDepsStdout allDepsStdout, hs, ?_, ?_⟩
  · intro k v hget
    exact mapGet_ID _ (fun e he => (hc e he).1) k v hget
  · intro i hi
    obtain ⟨e, _, _, _, rfl⟩ := (mem_direct ord plan i).1 hi
    rfl
  · intro k v hget
    exact mapGet_ID _ (fun e he => (hs e he).1) k v hget
  · intro i hi
    obtain ⟨l, _, rfl⟩ := List.mem_map.1 hi
    rfl

end haskell
